import Mathlib

set_option maxHeartbeats 1000000

/-!
Formal model of the translation-sync tool in `ci/translate/translate.go`.

The Go program keeps a multi-language YAML dictionary synchronized against a
reference language: it loads the dictionary, fills keys missing from each
target language via the DeepL HTTP API, saves the merged dictionary through a
temp-file-and-rename, and renders a generated JS artifact embedding every
language.  The definitions below are a shallow embedding of that code: Go maps
become association lists, in-place mutation becomes explicit state passing,
the HTTP client becomes a function parameter, and panics become an explicit
error constructor.
-/

/-- Single quote character (ASCII 39). -/
def sqChar : Char := Char.ofNat 39

/-- Backslash character (ASCII 92). -/
def bsChar : Char := Char.ofNat 92

/-- Single quote as a string. -/
def sqStr : String := String.singleton sqChar

/-- Backslash as a string. -/
def bsStr : String := String.singleton bsChar

/-- An element of a Go `[]any` sequence value.  The sync code only ever
observes of an element whether it is a `string` (via the `str.(string)` type
assertion) and otherwise its dynamic type name, so elements of any other Go
type (numbers, nested sequences, maps, nil) are represented by `eother`
carrying their `%T` name, and `enull` is a nil element. -/
inductive TElem where
  | estr (s : String)
  | enull
  | eother (goType : String)
deriving DecidableEq, Repr

/-- A dynamically typed translation value, Go `any` inside `map[string]any`.
`vnull` is Go `nil` (also the zero value a map lookup yields on a missing
key); `vstr` is a Go `string`; `vseq` is a Go `[]any` (or the `[]string` the
sync stores); `vother` stands for a value of any other Go type, identified by
its `%T` type name. -/
inductive TValue where
  | vnull
  | vstr (s : String)
  | vseq (elems : List TElem)
  | vother (goType : String)
deriving DecidableEq, Repr

/-- The `%T` format of a value, as used in the `default` branch of
`autoTranslateKeyForLang`. -/
def goTypeName : TValue → String
  | .vnull => "<nil>"
  | .vstr _ => "string"
  | .vseq _ => "[]interface \x7b\x7d"
  | .vother t => t

/-- The dynamic type of a sequence element, as named in the panic message of
a failed `str.(string)` type assertion. -/
def goElemTypeName : TElem → String
  | .estr _ => "string"
  | .enull => "<nil>"
  | .eother t => t

/-- Association-list lookup, the embedding of a Go map read. -/
def alookup {α : Type} : List (String × α) → String → Option α
  | [], _ => none
  | p :: rest, k => if p.1 = k then some p.2 else alookup rest k

/-- The Go type `translation = map[string]any`: a map from string keys to
dynamically typed values, embedded as an association list. -/
abbrev Translation := List (String × TValue)

/-- Go map read `m[key]` on a `map[string]any`: a missing key yields the zero
value `nil`, so absent keys and explicit `null` values are indistinguishable
to this read, exactly as in the source. -/
def tlookup (m : Translation) (k : String) : TValue :=
  (alookup m k).getD .vnull

/-- Go map write `m[k] = v`: replaces the value when the key is present,
otherwise adds the binding. -/
def ainsert {α : Type} (l : List (String × α)) (k : String) (v : α) : List (String × α) :=
  if (alookup l k).isSome then l.map (fun p => if p.1 = k then (k, v) else p)
  else l ++ [(k, v)]

/-- Key list of an association list. -/
def akeys {α : Type} (l : List (String × α)) : List String := l.map Prod.fst

/-- The Go struct `translationMapping`: one language entry with its DeepL
language code, language key, and key-value mapping. -/
structure TranslationMapping where
  deeplLanguage : String
  languageKey : String
  translations : Translation
deriving DecidableEq, Repr

/-- The Go struct `translationFile`: the reference entry plus the map from
language key to target language entry. -/
structure TranslationFile where
  reference : TranslationMapping
  translations : List (String × TranslationMapping)
deriving DecidableEq, Repr

/-- One translation request: source language, destination language, text. -/
abbrev Call := String × String × String

/-- The translation client abstraction: in the program this is
`fetchTranslation` speaking HTTP to DeepL; the sync-engine claims quantify
over stub clients as the spec's testable properties do. -/
abbrev Client := String → String → String → Except String String

/-- A total deterministic stub client that never fails. -/
def clientOf (f : String → String → String → String) : Client :=
  fun src dest text => .ok (f src dest text)

/-- Errors a sync run can stop with: `emsg` is an ordinary Go `error` return
(carrying the formatted message), `epanic` is a runtime panic (the
`str.(string)` type assertion, or a nil map dereference). -/
inductive SyncErr where
  | emsg (s : String)
  | epanic (s : String)
deriving DecidableEq, Repr

/-- Whether an optional sync error is a runtime panic. -/
def isPanicOpt : Option SyncErr → Bool
  | some (.epanic _) => true
  | _ => false

/-- Message produced by `errors.Wrapf(err, "translating %s:%s", lang, key)`. -/
def wrapf (lang key inner : String) : String :=
  "translating " ++ lang ++ ":" ++ key ++ ": " ++ inner

/-- State of a sync run: the (mutated) dictionary, the list of translation
requests issued so far, and the error the run stopped with, if any.  Because
the Go code mutates the dictionary in place through pointers, the dictionary
reached at the moment of an error is part of the result. -/
structure StepResult where
  tf : TranslationFile
  calls : List Call
  err : Option SyncErr
deriving DecidableEq, Repr

/-- Mutation through the pointer `tf.Translations[lang]`: rewrite the entry
stored under `lang`, leaving the map structure itself unchanged. -/
def updateLang (tf : TranslationFile) (lang : String)
    (g : TranslationMapping → TranslationMapping) : TranslationFile :=
  { reference := tf.reference
    translations := tf.translations.map (fun p => if p.1 = lang then (p.1, g p.2) else p) }

/-- The `case []any` loop body of `autoTranslateKeyForLang`: translate each
element in order.  An element that is not a string panics via the
`str.(string)` type assertion before any request for it is issued; a client
failure aborts the loop.  Returns the translated strings and the calls made. -/
def translateSeq (client : Client) (src dest : String) :
    List TElem → Except (SyncErr × List Call) (List String × List Call)
  | [] => .ok ([], [])
  | e :: rest =>
    match e with
    | .estr s =>
      match client src dest s with
      | .error m => .error (.emsg m, [(src, dest, s)])
      | .ok t =>
        match translateSeq client src dest rest with
        | .error (er, cs) => .error (er, (src, dest, s) :: cs)
        | .ok (ts, cs) => .ok (t :: ts, (src, dest, s) :: cs)
    | e' => .error (.epanic ("interface conversion: interface \x7b\x7d is "
        ++ goElemTypeName e' ++ ", not string"), [])

/-- The Go function `autoTranslateKeyForLang`.  Skips the key when the entry
already holds a non-nil value; otherwise dispatches on the reference value:
a string is translated once, a `[]any` element-wise (elements must be
strings, else the type assertion panics), anything else is an
"unexpected translation type" error.  Note the scalar branch is Go's
two-value assignment `m[key], err = fetchTranslation(...)`: on failure the
key is still assigned the zero string before the error returns. -/
def autoTranslateKeyForLang (client : Client) (tf : TranslationFile)
    (lang key : String) : StepResult :=
  match alookup tf.translations lang with
  | none =>
    { tf := tf, calls := []
      err := some (.epanic "invalid memory address or nil pointer dereference") }
  | some tm =>
    if tlookup tm.translations key ≠ .vnull then { tf := tf, calls := [], err := none }
    else
      match tlookup tf.reference.translations key with
      | .vstr s =>
        match client tf.reference.deeplLanguage tm.deeplLanguage s with
        | .ok t =>
          { tf := updateLang tf lang
              (fun mm => { mm with translations := ainsert mm.translations key (.vstr t) })
            calls := [(tf.reference.deeplLanguage, tm.deeplLanguage, s)]
            err := none }
        | .error m =>
          { tf := updateLang tf lang
              (fun mm => { mm with translations := ainsert mm.translations key (.vstr "") })
            calls := [(tf.reference.deeplLanguage, tm.deeplLanguage, s)]
            err := some (.emsg (wrapf lang key m)) }
      | .vseq es =>
        match translateSeq client tf.reference.deeplLanguage tm.deeplLanguage es with
        | .ok (ts, cs) =>
          { tf := updateLang tf lang
              (fun mm => { mm with translations := ainsert mm.translations key (.vseq (ts.map TElem.estr)) })
            calls := cs, err := none }
        | .error (.emsg m, cs) => { tf := tf, calls := cs, err := some (.emsg (wrapf lang key m)) }
        | .error (er, cs) => { tf := tf, calls := cs, err := some er }
      | v => { tf := tf, calls := [], err := some (.emsg ("unexpected translation type " ++ goTypeName v)) }

/-- The inner `for _, key := range keys` loop of `autoTranslate`: process each
key for one language, stopping at the first error.  An ordinary error from
`autoTranslateKeyForLang` is wrapped once more with `translating lang:key`;
a panic propagates unchanged. -/
def syncKeys (client : Client) (lang : String) : List String → StepResult → StepResult
  | [], st => st
  | key :: rest, st =>
    let r := autoTranslateKeyForLang client st.tf lang key
    match r.err with
    | some (.emsg m) => { tf := r.tf, calls := st.calls ++ r.calls, err := some (.emsg (wrapf lang key m)) }
    | some er => { tf := r.tf, calls := st.calls ++ r.calls, err := some er }
    | none => syncKeys client lang rest { tf := r.tf, calls := st.calls ++ r.calls, err := none }

/-- The outer `for lang := range tf.Translations` loop of `autoTranslate`:
languages without a DeepL language code are skipped with a warning. -/
def syncLangs (client : Client) (keys : List String) : List String → StepResult → StepResult
  | [], st => st
  | lang :: rest, st =>
    match alookup st.tf.translations lang with
    | none => syncLangs client keys rest st
    | some tm =>
      if tm.deeplLanguage = "" then syncLangs client keys rest st
      else
        let st' := syncKeys client lang keys st
        match st'.err with
        | some _ => st'
        | none => syncLangs client keys rest st'

/-- The Go function `autoTranslate`.  Go iterates the reference key map and
the language map in unspecified map order; the embedding therefore takes the
two iteration orders `langOrder` and `keyOrder` as explicit parameters
(claims hypothesize that they enumerate the respective key sets). With an
empty API key the whole sync is skipped with a warning. -/
def autoTranslate (client : Client) (apiKey : String)
    (langOrder keyOrder : List String) (tf : TranslationFile) : StepResult :=
  if apiKey = "" then { tf := tf, calls := [], err := none }
  else syncLangs client keyOrder langOrder { tf := tf, calls := [], err := none }

/-- Element-wise stub translation of one sequence element (non-strings are
never successfully translated; this branch is only reached on all-string
sequences in a successful run). -/
def translateElem (f : String → String → String → String) (src dest : String) : TElem → TElem
  | .estr s => .estr (f src dest s)
  | e => e

/-- The value a successful fill stores for a missing key, as a function of
the reference value: a scalar becomes the stub's translation, a sequence
becomes the element-wise translation preserving length and order. -/
def fillValue (f : String → String → String → String) (src dest : String) : TValue → TValue
  | .vstr s => .vstr (f src dest s)
  | .vseq es => .vseq (es.map (translateElem f src dest))
  | v => v

/-- Whether a sequence element is a Go string. -/
def isText : TElem → Bool
  | .estr _ => true
  | _ => false

/-- Whether a reference value is acceptable to the fill dispatch: a scalar
string, or a sequence all of whose elements are strings. -/
def wellTyped : TValue → Bool
  | .vstr _ => true
  | .vseq es => es.all isText
  | _ => false

/-- Whether two values carry the same variant (scalar vs sequence). -/
def sameVariant : TValue → TValue → Bool
  | .vstr _, .vstr _ => true
  | .vseq _, .vseq _ => true
  | _, _ => false

/-- Decidable equality for `Except`, needed to evaluate claims about results
of fallible operations on concrete inputs. -/
instance {ε α : Type} [DecidableEq ε] [DecidableEq α] : DecidableEq (Except ε α) := fun x y =>
  match x, y with
  | .ok a, .ok b =>
    if h : a = b then isTrue (by rw [h])
    else isFalse (fun hh => h (by injection hh))
  | .error a, .error b =>
    if h : a = b then isTrue (by rw [h])
    else isFalse (fun hh => h (by injection hh))
  | .ok _, .error _ => isFalse (fun hh => by injection hh)
  | .error _, .ok _ => isFalse (fun hh => by injection hh)

/-- Input to one `fetchTranslation` invocation, abstracting the HTTP layer:
either the transport failed, or a response arrived with a status code and a
body whose JSON decoding into the expected payload either failed or yielded
the list of translated texts. -/
inductive FetchInput where
  | transportError (msg : String)
  | response (status : Nat) (decoded : Except String (List String))
deriving DecidableEq, Repr

/-- The Go function `fetchTranslation`, modulo the HTTP layer abstracted by
`FetchInput`.  Faithful to the source: the response status code is never
inspected; the body is decoded unconditionally and the only shape check is
that exactly one translation result is present. -/
def fetchTranslation : FetchInput → Except String String
  | .transportError m => .error ("executing request: " ++ m)
  | .response _ (.error m) => .error ("decoding DeepL response: " ++ m)
  | .response _ (.ok texts) =>
    if texts.length ≠ 1 then .error ("unexpected number of translations: " ++ toString texts.length)
    else .ok (texts.headD "")

/-- Lower-case hex digit, as produced by Go `encoding/json` unicode escapes. -/
def hexDigit (n : Nat) : Char :=
  if n < 10 then Char.ofNat (48 + n) else Char.ofNat (87 + n)

/-- Escaping of one character by Go `encoding/json` string encoding (HTML
escaping enabled, the `json.Marshal` default): quote, backslash, newline,
carriage return and tab get two-character escapes; `<`, `>`, `&` and other
control characters become unicode escapes; U+2028 and U+2029 likewise;
everything else is emitted verbatim.  In particular a single quote is
emitted verbatim. -/
def jsonEscapeChar (c : Char) : List Char :=
  if c = '"' then [bsChar, '"']
  else if c = bsChar then [bsChar, bsChar]
  else if c = '\n' then [bsChar, 'n']
  else if c = '\r' then [bsChar, 'r']
  else if c = '\t' then [bsChar, 't']
  else if c = '<' ∨ c = '>' ∨ c = '&' ∨ c.toNat < 32 then
    [bsChar, 'u', '0', '0', hexDigit (c.toNat / 16), hexDigit (c.toNat % 16)]
  else if c.toNat = 8232 then [bsChar, 'u', '2', '0', '2', '8']
  else if c.toNat = 8233 then [bsChar, 'u', '2', '0', '2', '9']
  else [c]

/-- JSON escaping of a whole string (without the surrounding quotes). -/
def jsonEscapeString (s : String) : String :=
  String.mk (List.flatten (s.toList.map jsonEscapeChar))

/-- A JSON string literal. -/
def jsonQuote (s : String) : String :=
  "\"" ++ jsonEscapeString s ++ "\""

/-- Sequence a fallible transformation over a list, stopping at the first
error — the shape of the loops inside `json.Marshal`, the template `range`
and the YAML codec. -/
def exceptMapList {α β : Type} (g : α → Except String β) : List α → Except String (List β)
  | [] => .ok []
  | a :: rest =>
    match g a with
    | .error e => .error e
    | .ok b =>
      match exceptMapList g rest with
      | .error e => .error e
      | .ok bs => .ok (b :: bs)

/-- JSON form of one sequence element under `json.Marshal`.  Elements outside
the scalar model (`eother`) have no JSON form in this embedding and yield an
error; the render claims only concern dictionaries of scalar and
sequence-of-scalar values. -/
def jsonOfElem : TElem → Except String String
  | .estr s => .ok (jsonQuote s)
  | .enull => .ok "null"
  | .eother t => .error ("json: unsupported value type " ++ t)

/-- Join a list of fragments with a separator, as `json.Marshal` emits
comma-separated members. -/
def joinSep (sep : String) : List String → String
  | [] => ""
  | [a] => a
  | a :: rest => a ++ sep ++ joinSep sep rest

/-- JSON form of one translation value under `json.Marshal`. -/
def jsonOfValue : TValue → Except String String
  | .vnull => .ok "null"
  | .vstr s => .ok (jsonQuote s)
  | .vseq es => do
    let parts ← exceptMapList jsonOfElem es
    pure ("[" ++ joinSep "," parts ++ "]")
  | .vother t => .error ("json: unsupported value type " ++ t)

/-- Insert an entry into a key-sorted association list, keeping it sorted. -/
def insertSorted {α : Type} (p : String × α) : List (String × α) → List (String × α)
  | [] => [p]
  | q :: rest => if p.1 < q.1 then p :: q :: rest else q :: insertSorted p rest

/-- Sort an association list by key.  Both `encoding/json` and
`text/template` (and `yaml.v3` when marshalling) iterate Go maps in sorted
key order; UTF-8 byte order coincides with code-point order. -/
def sortByKey {α : Type} : List (String × α) → List (String × α)
  | [] => []
  | p :: rest => insertSorted p (sortByKey rest)

/-- The `json.Marshal` form of a `translation` map: keys sorted, each entry
a quoted key, a colon and the value, joined by commas inside braces. -/
def jsonOfTranslation (m : Translation) : Except String String := do
  let parts ← exceptMapList (fun p => do
    let v ← jsonOfValue p.2
    pure (jsonQuote p.1 ++ ":" ++ v)) (sortByKey m)
  pure ("\x7b" ++ joinSep "," parts ++ "\x7d")

/-- Insert a backslash before every single quote, the embedding of
`strings.ReplaceAll(j, sq, bs ++ sq)` for the single-character pattern. -/
def escapeSQChars : List Char → List Char
  | [] => []
  | c :: rest => (if c = sqChar then [bsChar, c] else [c]) ++ escapeSQChars rest

/-- The Go method `translation.ToJSON`: marshal to JSON, then escape every
single quote so the result can be embedded in a single-quoted JS string. -/
def translationToJSON (m : Translation) : Except String String := do
  let j ← jsonOfTranslation m
  pure (String.mk (escapeSQChars j.toList))

/-- One language block emitted by the `jsTemplate` range body. -/
def renderBlock (lang jsonText : String) : String :=
  "\n  " ++ sqStr ++ lang ++ sqStr ++ ": JSON.parse(" ++ sqStr ++ jsonText ++ sqStr ++ "),"

/-- Text of `jsTemplate` before the range. -/
def jsHeader : String := "// Auto-Generated, do not edit!\n\nexport default \x7b"

/-- Text of `jsTemplate` after the range. -/
def jsFooter : String := "\n\x7d\n"

/-- The block the template produces for one language entry. -/
def blockOfEntry (p : String × TranslationMapping) : Except String String := do
  let j ← translationToJSON p.2.translations
  pure (renderBlock p.1 j)

/-- Execution of `jsTemplate` on a translation file: header, one block per
language in sorted key order, footer.  A failing `ToJSON` call fails the
whole template execution, as in `text/template`. -/
def renderJS (tf : TranslationFile) : Except String String := do
  let blocks ← exceptMapList blockOfEntry (sortByKey tf.translations)
  pure (jsHeader ++ String.join blocks ++ jsFooter)

/-- The render-time view built in `main` just before rendering:
`tf.Translations[tf.Reference.LanguageKey] = &tf.Reference`. -/
def renderView (tf : TranslationFile) : TranslationFile :=
  { tf with translations := ainsert tf.translations tf.reference.languageKey tf.reference }

/-- A flat file system: a map from path to file content. -/
structure FS where
  files : List (String × String)
deriving DecidableEq, Repr

/-- Read a file, `none` when the path does not exist. -/
def fsRead (fs : FS) (p : String) : Option String := alookup fs.files p

/-- Create or truncate-and-write a file. -/
def fsWrite (fs : FS) (p c : String) : FS := ⟨ainsert fs.files p c⟩

/-- Remove a path. -/
def fsRemove (fs : FS) (p : String) : FS := ⟨fs.files.filter (fun q => q.1 ≠ p)⟩

/-- The `os.Rename` step: move `src` over `dst`, replacing it. -/
def fsRename (fs : FS) (src dst : String) : FS :=
  match fsRead fs src with
  | none => fs
  | some c => fsWrite (fsRemove fs src) dst c

/-- The Go function `saveTranslationFile`, over the file-system model.  The
YAML encoder is abstracted as the parameter `enc` (the claims hold for every
encoder); `createFault` injects an `os.Create` I/O failure.  On an encoding
failure the temporary file holds partial output (modelled as empty) and the
function returns before the rename. -/
def saveTranslationFile (createFault : Bool) (enc : TranslationFile → Except String String)
    (fs : FS) (path : String) (tf : TranslationFile) : FS × Option String :=
  if createFault then (fs, some "creating tempfile")
  else
    match enc tf with
    | .error m => (fsWrite fs (path ++ ".tmp") "", some ("encoding translation file: " ++ m))
    | .ok data => (fsRename (fsWrite fs (path ++ ".tmp") data) (path ++ ".tmp") path, none)

/-- The Go function `renderJSFile`: render `jsTemplate` into a temporary file
and rename it over the output path. -/
def renderJSFile (createFault : Bool) (fs : FS) (path : String) (tf : TranslationFile) :
    FS × Option String :=
  if createFault then (fs, some "creating tempfile")
  else
    match renderJS tf with
    | .error m => (fsWrite fs (path ++ ".tmp") "", some ("rendering js template: " ++ m))
    | .ok data => (fsRename (fsWrite fs (path ++ ".tmp") data) (path ++ ".tmp") path, none)

/-- The Go function `loadTranslationFile`, with the YAML decoder abstracted
as the parameter `dec`: opening a missing file fails, and a decoder failure
fails the load. -/
def loadTranslationFile (dec : String → Except String TranslationFile) (fs : FS) (path : String) :
    Except String TranslationFile :=
  match fsRead fs path with
  | none => .error "opening translation file"
  | some text =>
    match dec text with
    | .error m => .error ("decoding translation file: " ++ m)
    | .ok tf => .ok tf

/-- Pipeline stage at which a run stopped (`done` on success). -/
inductive Stage where
  | load | sync | save | render | done
deriving DecidableEq, Repr

/-- Message of a sync error as logged by `main`. -/
def syncErrMsg : SyncErr → String
  | .emsg s => s
  | .epanic s => s

/-- Outcome of one whole run of `main` (after flag parsing): the final file
system, the stage reached, and the fatal error message if any. -/
structure RunResult where
  fs : FS
  stage : Stage
  errMsg : Option String
deriving DecidableEq, Repr

/-- The pipeline of `main`: load, sync, save the dictionary, build the render
view, render the JS artifact.  Each stage is fatal on error, later stages do
not run. -/
def runMain (client : Client) (apiKey : String) (langOrder keyOrder : List String)
    (dec : String → Except String TranslationFile) (enc : TranslationFile → Except String String)
    (saveCreateFault renderCreateFault : Bool)
    (fs : FS) (tfPath outPath : String) : RunResult :=
  match loadTranslationFile dec fs tfPath with
  | .error m => ⟨fs, .load, some m⟩
  | .ok tf =>
    let st := autoTranslate client apiKey langOrder keyOrder tf
    match st.err with
    | some e => ⟨fs, .sync, some (syncErrMsg e)⟩
    | none =>
      match saveTranslationFile saveCreateFault enc fs tfPath st.tf with
      | (fs1, some m) => ⟨fs1, .save, some m⟩
      | (fs1, none) =>
        match renderJSFile renderCreateFault fs1 outPath (renderView st.tf) with
        | (fs2, some m) => ⟨fs2, .render, some m⟩
        | (fs2, none) => ⟨fs2, .done, none⟩

/-- Modelled from the spec: the YAML document tree produced and consumed by
the external `gopkg.in/yaml.v3` codec, which is not part of this repository.
The spec describes the dictionary file as a structured text document with a
`reference` entry and a `translations` mapping, values being scalar text or
ordered sequences of text; this type is the corresponding node tree (the
byte-level YAML syntax is below the level at which the round-trip claim is
stated). -/
inductive YNode where
  | ynull
  | ystr (s : String)
  | yseq (items : List YNode)
  | ymap (entries : List (String × YNode))

/-- Modelled from the spec: YAML encoding of one sequence element.  Values
outside the scalar model have no encoding in this embedding. -/
def encodeElem : TElem → Except String YNode
  | .estr s => .ok (.ystr s)
  | .enull => .ok .ynull
  | .eother t => .error ("cannot marshal type " ++ t)

/-- Modelled from the spec: YAML encoding of one translation value. -/
def encodeValue : TValue → Except String YNode
  | .vnull => .ok .ynull
  | .vstr s => .ok (.ystr s)
  | .vseq es => do
    let items ← exceptMapList encodeElem es
    pure (.yseq items)
  | .vother t => .error ("cannot marshal type " ++ t)

/-- Modelled from the spec: YAML encoding of a `translation` map; like
`yaml.v3`, map keys are emitted in sorted order. -/
def encodeTranslation (m : Translation) : Except String YNode := do
  let entries ← exceptMapList (fun p => do
    let v ← encodeValue p.2
    pure (p.1, v)) (sortByKey m)
  pure (.ymap entries)

/-- Modelled from the spec: YAML encoding of a `translationMapping` struct.
Struct fields are emitted in declaration order; `deeplLanguage` and
`languageKey` carry `omitempty` and are dropped when empty. -/
def encodeMapping (tm : TranslationMapping) : Except String YNode := do
  let tr ← encodeTranslation tm.translations
  pure (.ymap
    ((if tm.deeplLanguage = "" then [] else [("deeplLanguage", YNode.ystr tm.deeplLanguage)])
      ++ (if tm.languageKey = "" then [] else [("languageKey", YNode.ystr tm.languageKey)])
      ++ [("translations", tr)]))

/-- Modelled from the spec: YAML encoding of the whole dictionary file, with
the `translations` map in sorted key order as `yaml.v3` emits Go maps. -/
def encodeTF (tf : TranslationFile) : Except String YNode := do
  let r ← encodeMapping tf.reference
  let entries ← exceptMapList (fun p => do
    let v ← encodeMapping p.2
    pure (p.1, v)) (sortByKey tf.translations)
  pure (.ymap [("reference", r), ("translations", .ymap entries)])

/-- Modelled from the spec: YAML decoding of a node into a Go `any`, which
never fails (scalars become strings or nil, sequences become `[]any`, and a
nested non-scalar element surfaces as a value of another Go type). -/
def decodeElem : YNode → TElem
  | .ynull => .enull
  | .ystr s => .estr s
  | .yseq _ => .eother "[]interface \x7b\x7d"
  | .ymap _ => .eother "map[string]interface \x7b\x7d"

/-- Modelled from the spec: YAML decoding of a value node into `any`. -/
def decodeValue : YNode → TValue
  | .ynull => .vnull
  | .ystr s => .vstr s
  | .yseq items => .vseq (items.map decodeElem)
  | .ymap _ => .vother "map[string]interface \x7b\x7d"

/-- Modelled from the spec: YAML decoding of an optional string struct field
(absent or null decodes to the empty string, a non-scalar node is an error). -/
def decodeStrField (entries : List (String × YNode)) (name : String) : Except String String :=
  match alookup entries name with
  | none => .ok ""
  | some .ynull => .ok ""
  | some (.ystr s) => .ok s
  | some _ => .error ("cannot unmarshal into string field " ++ name)

/-- Modelled from the spec: YAML decoding of a `translations` map field
(absent or null decodes to the empty map). -/
def decodeTranslation (entries : List (String × YNode)) : Except String Translation :=
  match alookup entries "translations" with
  | none => .ok []
  | some .ynull => .ok []
  | some (.ymap kvs) => .ok (kvs.map (fun p => (p.1, decodeValue p.2)))
  | some _ => .error "cannot unmarshal into map"

/-- Modelled from the spec: YAML decoding of a `translationMapping`. -/
def decodeMapping : YNode → Except String TranslationMapping
  | .ynull => .ok ⟨"", "", []⟩
  | .ymap entries => do
    let dl ← decodeStrField entries "deeplLanguage"
    let lk ← decodeStrField entries "languageKey"
    let tr ← decodeTranslation entries
    pure ⟨dl, lk, tr⟩
  | _ => .error "cannot unmarshal into struct translationMapping"

/-- Modelled from the spec: YAML decoding of the `translations` map of the
file, each entry decoded as a `translationMapping`. -/
def decodeLangEntries (kvs : List (String × YNode)) :
    Except String (List (String × TranslationMapping)) :=
  exceptMapList (fun p =>
    match decodeMapping p.2 with
    | .error e => .error e
    | .ok m => .ok (p.1, m)) kvs

/-- Modelled from the spec: YAML decoding of the whole dictionary file. -/
def decodeTF : YNode → Except String TranslationFile
  | .ynull => .ok ⟨⟨"", "", []⟩, []⟩
  | .ymap entries =>
    match ((match alookup entries "reference" with
            | none => Except.ok ⟨"", "", []⟩
            | some n => decodeMapping n) : Except String TranslationMapping) with
    | .error e => .error e
    | .ok r =>
      match alookup entries "translations" with
      | none => .ok ⟨r, []⟩
      | some .ynull => .ok ⟨r, []⟩
      | some (.ymap kvs) =>
        match decodeLangEntries kvs with
        | .error e => .error e
        | .ok tr => .ok ⟨r, tr⟩
      | some _ => .error "cannot unmarshal into map"
  | _ => .error "cannot unmarshal into struct translationFile"

/-- Key-sorted normal form of a language entry. -/
def canonTM (tm : TranslationMapping) : TranslationMapping :=
  { tm with translations := sortByKey tm.translations }

/-- Key-sorted normal form of a dictionary: every map sorted by key, values
untouched.  This is the "ignoring key ordering" of the round-trip claim made
explicit. -/
def canonTF (tf : TranslationFile) : TranslationFile :=
  { reference := canonTM tf.reference
    translations := sortByKey (tf.translations.map (fun p => (p.1, canonTM p.2))) }

/-- Whether one sequence element is inside the scalar data model. -/
def serializableElem : TElem → Bool
  | .eother _ => false
  | _ => true

/-- Whether a value is inside the data model that the external codecs can
carry (no `vother`). -/
def serializableValue : TValue → Bool
  | .vother _ => false
  | .vseq es => es.all serializableElem
  | _ => true

/-- Whether every value of a language entry is serializable. -/
def serializableTM (tm : TranslationMapping) : Bool :=
  tm.translations.all (fun p => serializableValue p.2)

/-- Whether every value anywhere in the dictionary is serializable. -/
def serializableTF (tf : TranslationFile) : Bool :=
  serializableTM tf.reference && tf.translations.all (fun p => serializableTM p.2)

/-- Additive-only relation between a language entry before and after (part
of) a sync run: the language codes are unchanged, every key present stays
present, and every key holding a non-nil value keeps that value. -/
def entryMono (pre post : TranslationMapping) : Prop :=
  post.deeplLanguage = pre.deeplLanguage ∧ post.languageKey = pre.languageKey ∧
  (∀ k, k ∈ akeys pre.translations → k ∈ akeys post.translations) ∧
  (∀ k, tlookup pre.translations k ≠ .vnull →
    tlookup post.translations k = tlookup pre.translations k)

/-- Additive-only relation between whole dictionaries: the reference is
untouched, the set of languages is unchanged, and every entry evolves
additively. -/
def tfMono (pre post : TranslationFile) : Prop :=
  post.reference = pre.reference ∧
  akeys post.translations = akeys pre.translations ∧
  (∀ lang tm, alookup pre.translations lang = some tm →
    ∃ tm', alookup post.translations lang = some tm' ∧ entryMono tm tm')

/-- A concrete stub translation client used in witnesses. -/
def demoStub : String → String → String → String := fun _ dest s => dest ++ ":" ++ s

/-- A concrete English reference entry with one scalar and one sequence key. -/
def demoRef : TranslationMapping where
  deeplLanguage := "EN"
  languageKey := "en"
  translations := [("greet", .vstr "hello"), ("list", .vseq [.estr "a", .estr "b"])]

/-- A concrete empty German target entry. -/
def demoDE : TranslationMapping where
  deeplLanguage := "DE"
  languageKey := "de"
  translations := []

/-- The German entry after the demo run fills both reference keys. -/
def demoFilledDE : TranslationMapping where
  deeplLanguage := "DE"
  languageKey := "de"
  translations := [("greet", .vstr "DE:hello"), ("list", .vseq [.estr "DE:a", .estr "DE:b"])]

/-- A concrete dictionary: English reference with one scalar and one sequence
key, one German target entry with a DeepL code and no translations yet. -/
def demoTF : TranslationFile where
  reference := demoRef
  translations := [("de", demoDE)]

/-- A reference with a single scalar key. -/
def demoRefK : TranslationMapping where
  deeplLanguage := "EN"
  languageKey := "en"
  translations := [("k", .vstr "hello")]

/-- A German entry mapping the reference key to an explicit null value. -/
def demoNullDE : TranslationMapping where
  deeplLanguage := "DE"
  languageKey := "de"
  translations := [("k", TValue.vnull)]

/-- A concrete dictionary whose German entry maps the reference key to an
explicit null value. -/
def demoNullTF : TranslationFile where
  reference := demoRefK
  translations := [("de", demoNullDE)]

/-- Whether a value dispatches to one of the two supported branches of the
type switch (a Go string or a Go slice). -/
def isScalarOrSeq : TValue → Bool
  | .vstr _ => true
  | .vseq _ => true
  | _ => false

/-- Whether a value, if it is a sequence, contains only string elements. -/
def seqElemsText : TValue → Bool
  | .vseq es => es.all isText
  | _ => true

/-- A reference whose single key holds a sequence with a non-string element
(a Go `int`). -/
def demoBadSeqRef : TranslationMapping where
  deeplLanguage := "EN"
  languageKey := "en"
  translations := [("k", .vseq [.eother "int"])]

/-- A dictionary whose reference value for `k` is a sequence containing a
non-string element, with an empty German target entry. -/
def demoBadSeqTF : TranslationFile where
  reference := demoBadSeqRef
  translations := [("de", demoDE)]

/-- A reference whose single key holds an explicit null (neither scalar nor
sequence). -/
def demoNullValRef : TranslationMapping where
  deeplLanguage := "EN"
  languageKey := "en"
  translations := [("k", TValue.vnull)]

/-- A dictionary whose reference value for `k` is null, with an empty German
target entry. -/
def demoNullValTF : TranslationFile where
  reference := demoNullValRef
  translations := [("de", demoDE)]

/-- Well-formedness of JSON-encoded text at the character level: every
backslash starts a two-character escape pair whose second character is not a
single quote (true of everything `encoding/json` emits, since a backslash is
always followed by one of `"`, backslash, `n`, `r`, `t`, `u`). -/
def bsSafe : List Char → Bool
  | [] => true
  | [c] => c ≠ bsChar
  | c :: d :: rest =>
    if c = bsChar then (d ≠ sqChar) && bsSafe rest
    else bsSafe (d :: rest)

/-- Checker that every single quote occurs as the second character of a
backslash escape pair: scanning left to right, a backslash consumes the
following character and a bare single quote fails.  A string satisfying this
never terminates a single-quoted JS string literal early. -/
def allSQEscaped : List Char → Bool
  | [] => true
  | [c] => c ≠ sqChar
  | c :: d :: rest =>
    if c = sqChar then false
    else if c = bsChar then allSQEscaped rest
    else allSQEscaped (d :: rest)

/-- A German entry holding a value with an apostrophe. -/
def demoAposDE : TranslationMapping where
  deeplLanguage := "DE"
  languageKey := "de"
  translations := [("q", .vstr ("it" ++ sqStr ++ "s"))]

/-- A dictionary whose German entry holds a value containing an apostrophe. -/
def demoAposTF : TranslationFile where
  reference := demoRefK
  translations := [("de", demoAposDE)]

/-- Relation between a language entry before and after a successful pass of
the key loop with stub client `f`, reference map `refT` and source language
`src`: keys of `keys` that were nil get the fill value (and their reference
value is well-typed), everything else is untouched, the key set grows by
exactly the filled keys, and key-list well-formedness is preserved. -/
def entryFilled (f : String → String → String → String) (refT : Translation) (src : String)
    (keys : List String) (pre post : TranslationMapping) : Prop :=
  post.deeplLanguage = pre.deeplLanguage ∧ post.languageKey = pre.languageKey ∧
  (∀ k, k ∈ keys → tlookup pre.translations k = .vnull →
    wellTyped (tlookup refT k) = true ∧
    tlookup post.translations k = fillValue f src pre.deeplLanguage (tlookup refT k)) ∧
  (∀ k, (k ∉ keys ∨ tlookup pre.translations k ≠ .vnull) →
    alookup post.translations k = alookup pre.translations k) ∧
  (∀ k, k ∈ akeys post.translations ↔
    k ∈ akeys pre.translations ∨ (k ∈ keys ∧ tlookup pre.translations k = .vnull)) ∧
  ((akeys pre.translations).Nodup → (akeys post.translations).Nodup)

theorem alookup_isSome_iff {α : Type} (l : List (String × α)) (k : String) :
    (alookup l k).isSome = true ↔ k ∈ akeys l := by
  induction l with
  | nil => simp [alookup, akeys]
  | cons p rest ih =>
    simp only [alookup, akeys, List.map_cons, List.mem_cons]
    by_cases h : p.1 = k
    · simp [h]
    · rw [if_neg h, ih]
      simp only [akeys]
      constructor
      · exact fun hh => Or.inr hh
      · rintro (hh | hh)
        · exact absurd hh.symm h
        · exact hh

theorem alookup_eq_none_iff {α : Type} (l : List (String × α)) (k : String) :
    alookup l k = none ↔ k ∉ akeys l := by
  rw [← alookup_isSome_iff]
  cases alookup l k <;> simp

theorem alookup_append {α : Type} (a b : List (String × α)) (k : String) :
    alookup (a ++ b) k = ((alookup a k).rec (alookup b k) (fun v => some v)) := by
  induction a with
  | nil => simp [alookup]
  | cons p rest ih =>
    by_cases hp : p.1 = k <;> simp [alookup, hp, ih]

theorem alookup_replace {α : Type} (l : List (String × α)) (k k' : String) (v : α) :
    alookup (l.map (fun p => if p.1 = k then (k, v) else p)) k'
      = if k = k' then (alookup l k).map (fun _ => v) else alookup l k' := by
  induction l with
  | nil => simp [alookup]
  | cons p rest ih =>
    simp only [List.map_cons]
    by_cases hp : p.1 = k
    · rw [if_pos hp]
      by_cases hk : k = k'
      · subst hk
        simp [alookup, hp]
      · simp [alookup, hk, ih, show ¬ p.1 = k' from fun hh => hk (hp ▸ hh)]
    · rw [if_neg hp]
      by_cases hpk : p.1 = k'
      · have hk : ¬ k = k' := fun hh => hp (by rw [hpk, hh])
        simp [alookup, hpk, hk]
      · simp [alookup, hpk, hp, ih]

theorem akeys_replace {α : Type} (l : List (String × α)) (k : String) (v : α) :
    akeys (l.map (fun p => if p.1 = k then (k, v) else p)) = akeys l := by
  simp only [akeys, List.map_map]
  apply List.map_congr_left
  intro p _
  by_cases hp : p.1 = k <;> simp [hp]

theorem alookup_ainsert_self {α : Type} (l : List (String × α)) (k : String) (v : α) :
    alookup (ainsert l k v) k = some v := by
  unfold ainsert
  by_cases hs : (alookup l k).isSome
  · rw [if_pos hs, alookup_replace, if_pos rfl]
    cases hh : alookup l k
    · rw [hh] at hs; simp at hs
    · simp
  · rw [if_neg hs, alookup_append]
    cases hh : alookup l k
    · simp [alookup]
    · rw [hh] at hs; simp at hs

theorem alookup_ainsert_other {α : Type} (l : List (String × α)) (k k' : String) (v : α)
    (h : k' ≠ k) : alookup (ainsert l k v) k' = alookup l k' := by
  unfold ainsert
  by_cases hs : (alookup l k).isSome
  · rw [if_pos hs, alookup_replace, if_neg (fun hh => h hh.symm)]
  · rw [if_neg hs, alookup_append]
    cases hh : alookup l k'
    · simp only [alookup]
      rw [if_neg (show ((k, v).1 = k') → False from fun hhh => h hhh.symm)]
    · rfl

theorem tlookup_ainsert_self (m : Translation) (k : String) (v : TValue) :
    tlookup (ainsert m k v) k = v := by
  simp [tlookup, alookup_ainsert_self]

theorem tlookup_ainsert_other (m : Translation) (k k' : String) (v : TValue) (h : k' ≠ k) :
    tlookup (ainsert m k v) k' = tlookup m k' := by
  simp [tlookup, alookup_ainsert_other m k k' v h]

theorem akeys_ainsert {α : Type} (l : List (String × α)) (k : String) (v : α) :
    akeys (ainsert l k v) = if (alookup l k).isSome then akeys l else akeys l ++ [k] := by
  unfold ainsert
  by_cases hs : (alookup l k).isSome
  · rw [if_pos hs, if_pos hs, akeys_replace]
  · rw [if_neg hs, if_neg hs]
    simp [akeys]

theorem mem_akeys_ainsert {α : Type} (l : List (String × α)) (k k' : String) (v : α) :
    k' ∈ akeys (ainsert l k v) ↔ k' ∈ akeys l ∨ k' = k := by
  rw [akeys_ainsert]
  by_cases hs : (alookup l k).isSome
  · rw [if_pos hs]
    constructor
    · exact fun hh => Or.inl hh
    · rintro (hh | hh)
      · exact hh
      · subst hh; exact (alookup_isSome_iff l k').mp hs
  · rw [if_neg hs]
    simp

theorem akeys_nodup_ainsert {α : Type} (l : List (String × α)) (k : String) (v : α)
    (h : (akeys l).Nodup) : (akeys (ainsert l k v)).Nodup := by
  rw [akeys_ainsert]
  by_cases hs : (alookup l k).isSome
  · rw [if_pos hs]; exact h
  · rw [if_neg hs]
    rw [List.nodup_append]
    refine ⟨h, List.nodup_singleton k, ?_⟩
    intro a ha hb
    simp only [List.mem_singleton] at hb
    subst hb
    exact hs ((alookup_isSome_iff l a).mpr ha)

theorem alookup_mapUpdate {α : Type} (l : List (String × α)) (lang k : String) (g : α → α) :
    alookup (l.map (fun p => if p.1 = lang then (p.1, g p.2) else p)) k
      = if lang = k then (alookup l k).map g else alookup l k := by
  induction l with
  | nil => simp [alookup]
  | cons p rest ih =>
    simp only [List.map_cons]
    by_cases hp : p.1 = lang
    · rw [if_pos hp]
      by_cases hk : lang = k
      · subst hk
        simp [alookup, hp]
      · have hpk : ¬ p.1 = k := fun hh => hk (hp ▸ hh)
        simp [alookup, hpk, ih, hk]
    · rw [if_neg hp]
      by_cases hpk : p.1 = k
      · have hk : ¬ lang = k := fun hh => hp (by rw [hpk, hh])
        simp [alookup, hpk, hk]
      · simp [alookup, hpk, hp, ih]

theorem updateLang_reference (tf : TranslationFile) (lang : String)
    (g : TranslationMapping → TranslationMapping) :
    (updateLang tf lang g).reference = tf.reference := rfl

theorem akeys_updateLang (tf : TranslationFile) (lang : String)
    (g : TranslationMapping → TranslationMapping) :
    akeys (updateLang tf lang g).translations = akeys tf.translations := by
  simp only [updateLang, akeys, List.map_map]
  apply List.map_congr_left
  intro p _
  by_cases hp : p.1 = lang <;> simp [hp]

theorem alookup_updateLang_self (tf : TranslationFile) (lang : String)
    (g : TranslationMapping → TranslationMapping) :
    alookup (updateLang tf lang g).translations lang = (alookup tf.translations lang).map g := by
  simp [updateLang, alookup_mapUpdate]

theorem alookup_updateLang_other (tf : TranslationFile) (lang k : String)
    (g : TranslationMapping → TranslationMapping) (h : lang ≠ k) :
    alookup (updateLang tf lang g).translations k = alookup tf.translations k := by
  simp [updateLang, alookup_mapUpdate, h]

theorem entryMono_refl (tm : TranslationMapping) : entryMono tm tm :=
  ⟨rfl, rfl, fun _ hk => hk, fun _ _ => rfl⟩

theorem entryMono_trans {a b c : TranslationMapping} (h1 : entryMono a b) (h2 : entryMono b c) :
    entryMono a c := by
  obtain ⟨d1, l1, m1, v1⟩ := h1
  obtain ⟨d2, l2, m2, v2⟩ := h2
  refine ⟨d2.trans d1, l2.trans l1, fun k hk => m2 k (m1 k hk), fun k hk => ?_⟩
  have hb := v1 k hk
  have : tlookup b.translations k ≠ .vnull := by rw [hb]; exact hk
  rw [v2 k this, hb]

theorem tfMono_refl (tf : TranslationFile) : tfMono tf tf :=
  ⟨rfl, rfl, fun _ tm h => ⟨tm, h, entryMono_refl tm⟩⟩

theorem tfMono_trans {a b c : TranslationFile} (h1 : tfMono a b) (h2 : tfMono b c) :
    tfMono a c := by
  obtain ⟨r1, k1, e1⟩ := h1
  obtain ⟨r2, k2, e2⟩ := h2
  refine ⟨r2.trans r1, k2.trans k1, fun lang tm h => ?_⟩
  obtain ⟨tm', hl', hm'⟩ := e1 lang tm h
  obtain ⟨tm'', hl'', hm''⟩ := e2 lang tm' hl'
  exact ⟨tm'', hl'', entryMono_trans hm' hm''⟩

theorem tfMono_updateLang_ainsert (tf : TranslationFile) (lang key : String)
    (tm : TranslationMapping) (v : TValue)
    (hl : alookup tf.translations lang = some tm)
    (hnull : tlookup tm.translations key = .vnull) :
    tfMono tf (updateLang tf lang
      (fun mm => { mm with translations := ainsert mm.translations key v })) := by
  refine ⟨rfl, akeys_updateLang tf lang _, fun lang' tm' hl' => ?_⟩
  by_cases hlang : lang = lang'
  · subst hlang
    rw [hl'] at hl
    injection hl with hl
    subst hl
    refine ⟨{ tm' with translations := ainsert tm'.translations key v }, ?_, ?_⟩
    · rw [alookup_updateLang_self, hl']
      rfl
    · refine ⟨rfl, rfl, fun k hk => ?_, fun k hk => ?_⟩
      · exact (mem_akeys_ainsert tm'.translations key k v).mpr (Or.inl hk)
      · simp only
        by_cases hkk : k = key
        · subst hkk
          exact absurd hnull hk
        · exact tlookup_ainsert_other tm'.translations key k v hkk
  · refine ⟨tm', ?_, entryMono_refl tm'⟩
    rw [alookup_updateLang_other tf lang lang' _ hlang, hl']

theorem step_mono (client : Client) (tf : TranslationFile) (lang key : String) :
    tfMono tf (autoTranslateKeyForLang client tf lang key).tf := by
  unfold autoTranslateKeyForLang
  cases hl : alookup tf.translations lang with
  | none => exact tfMono_refl tf
  | some tm =>
    dsimp only
    by_cases hskip : tlookup tm.translations key ≠ .vnull
    · rw [if_pos hskip]
      exact tfMono_refl tf
    · rw [if_neg hskip]
      push_neg at hskip
      cases href : tlookup tf.reference.translations key with
      | vstr s =>
        dsimp only
        cases client tf.reference.deeplLanguage tm.deeplLanguage s with
        | ok t => exact tfMono_updateLang_ainsert tf lang key tm _ hl hskip
        | error m => exact tfMono_updateLang_ainsert tf lang key tm _ hl hskip
      | vseq es =>
        dsimp only
        cases htr : translateSeq client tf.reference.deeplLanguage tm.deeplLanguage es with
        | ok pr =>
          rcases pr with ⟨ts, cs⟩
          exact tfMono_updateLang_ainsert tf lang key tm _ hl hskip
        | error pr =>
          rcases pr with ⟨er, cs⟩
          cases er with
          | emsg m => exact tfMono_refl tf
          | epanic m => exact tfMono_refl tf
      | vnull => exact tfMono_refl tf
      | vother t => exact tfMono_refl tf

theorem syncKeys_mono (client : Client) (lang : String) (keys : List String) (st : StepResult) :
    tfMono st.tf (syncKeys client lang keys st).tf := by
  induction keys generalizing st with
  | nil => exact tfMono_refl st.tf
  | cons key rest ih =>
    simp only [syncKeys]
    have hstep := step_mono client st.tf lang key
    cases herr : (autoTranslateKeyForLang client st.tf lang key).err with
    | some er =>
      cases er with
      | emsg m => exact hstep
      | epanic m => exact hstep
    | none =>
      exact tfMono_trans hstep (ih _)

theorem syncLangs_mono (client : Client) (keys langs : List String) (st : StepResult) :
    tfMono st.tf (syncLangs client keys langs st).tf := by
  induction langs generalizing st with
  | nil => exact tfMono_refl st.tf
  | cons lang rest ih =>
    simp only [syncLangs]
    cases hl : alookup st.tf.translations lang with
    | none => exact ih st
    | some tm =>
      dsimp only
      by_cases hdl : tm.deeplLanguage = ""
      · rw [if_pos hdl]
        exact ih st
      · rw [if_neg hdl]
        have hk := syncKeys_mono client lang keys st
        cases herr : (syncKeys client lang keys st).err with
        | some er => exact hk
        | none => exact tfMono_trans hk (ih _)

theorem autoTranslate_mono (client : Client) (apiKey : String)
    (langOrder keyOrder : List String) (tf : TranslationFile) :
    tfMono tf (autoTranslate client apiKey langOrder keyOrder tf).tf := by
  unfold autoTranslate
  by_cases hk : apiKey = ""
  · rw [if_pos hk]
    exact tfMono_refl tf
  · rw [if_neg hk]
    exact syncLangs_mono client keyOrder langOrder ⟨tf, [], none⟩

theorem fillValue_ne_vnull (f : String → String → String → String) (src dest : String)
    (v : TValue) (h : wellTyped v = true) : fillValue f src dest v ≠ .vnull := by
  cases v <;> simp [wellTyped] at h <;> simp [fillValue]

theorem sameVariant_fillValue (f : String → String → String → String) (src dest : String)
    (v : TValue) (h : wellTyped v = true) : sameVariant (fillValue f src dest v) v = true := by
  cases v <;> simp [wellTyped] at h <;> simp [fillValue, sameVariant]

theorem translateSeq_clientOf_allText (f : String → String → String → String)
    (src dest : String) (es : List TElem) (h : es.all isText = true) :
    ∃ ts cs, translateSeq (clientOf f) src dest es = .ok (ts, cs) ∧
      ts.map TElem.estr = es.map (translateElem f src dest) := by
  induction es with
  | nil => exact ⟨[], [], rfl, rfl⟩
  | cons e rest ih =>
    rw [List.all_cons, Bool.and_eq_true] at h
    obtain ⟨he, hrest⟩ := h
    cases e with
    | estr s =>
      obtain ⟨ts, cs, heq, hmap⟩ := ih hrest
      refine ⟨f src dest s :: ts, (src, dest, s) :: cs, ?_, ?_⟩
      · simp [translateSeq, clientOf, heq]
      · simp [hmap, translateElem]
    | enull => simp [isText] at he
    | eother t => simp [isText] at he

theorem translateSeq_clientOf_panic (f : String → String → String → String)
    (src dest : String) (es : List TElem) (h : es.all isText = false) :
    ∃ m cs, translateSeq (clientOf f) src dest es = .error (.epanic m, cs) := by
  induction es with
  | nil => simp at h
  | cons e rest ih =>
    rw [List.all_cons, Bool.and_eq_false_iff] at h
    cases e with
    | estr s =>
      have hrest : rest.all isText = false := by
        rcases h with h | h
        · simp [isText] at h
        · exact h
      obtain ⟨m, cs, heq⟩ := ih hrest
      exact ⟨m, (src, dest, s) :: cs, by simp [translateSeq, clientOf, heq]⟩
    | enull => exact ⟨_, [], rfl⟩
    | eother t => exact ⟨_, [], rfl⟩

theorem step_skip (client : Client) (tf : TranslationFile) (lang key : String)
    (tm : TranslationMapping) (hl : alookup tf.translations lang = some tm)
    (hskip : tlookup tm.translations key ≠ .vnull) :
    autoTranslateKeyForLang client tf lang key = ⟨tf, [], none⟩ := by
  unfold autoTranslateKeyForLang
  rw [hl]
  dsimp only
  rw [if_pos hskip]

theorem step_fill (f : String → String → String → String) (tf : TranslationFile)
    (lang key : String) (tm : TranslationMapping)
    (hl : alookup tf.translations lang = some tm)
    (hnull : tlookup tm.translations key = .vnull)
    (hwt : wellTyped (tlookup tf.reference.translations key) = true) :
    autoTranslateKeyForLang (clientOf f) tf lang key
      = ⟨updateLang tf lang
            (fun mm => { mm with
              translations := ainsert mm.translations key
                  (fillValue f tf.reference.deeplLanguage tm.deeplLanguage
                    (tlookup tf.reference.translations key)) }),
         (autoTranslateKeyForLang (clientOf f) tf lang key).calls, none⟩ := by
  unfold autoTranslateKeyForLang
  rw [hl]
  dsimp only
  rw [if_neg (by simp [hnull])]
  cases href : tlookup tf.reference.translations key with
  | vstr s => simp [clientOf, fillValue]
  | vseq es =>
    rw [href] at hwt
    obtain ⟨ts, cs, heq, hmap⟩ := translateSeq_clientOf_allText f
      tf.reference.deeplLanguage tm.deeplLanguage es (by simpa [wellTyped] using hwt)
    dsimp only
    rw [heq]
    dsimp only
    rw [hmap]
    simp [fillValue]
  | vnull => rw [href] at hwt; simp [wellTyped] at hwt
  | vother t => rw [href] at hwt; simp [wellTyped] at hwt

theorem step_err_of_not_wellTyped (f : String → String → String → String)
    (tf : TranslationFile) (lang key : String) (tm : TranslationMapping)
    (hl : alookup tf.translations lang = some tm)
    (hnull : tlookup tm.translations key = .vnull)
    (hwt : wellTyped (tlookup tf.reference.translations key) = false) :
    (autoTranslateKeyForLang (clientOf f) tf lang key).err.isSome = true := by
  unfold autoTranslateKeyForLang
  rw [hl]
  dsimp only
  rw [if_neg (by simp [hnull])]
  cases href : tlookup tf.reference.translations key with
  | vstr s => rw [href] at hwt; simp [wellTyped] at hwt
  | vseq es =>
    rw [href] at hwt
    obtain ⟨m, cs, heq⟩ := translateSeq_clientOf_panic f
      tf.reference.deeplLanguage tm.deeplLanguage es (by simpa [wellTyped] using hwt)
    dsimp only
    rw [heq]
    rfl
  | vnull => rfl
  | vother t => rfl

theorem syncKeys_ok_char (f : String → String → String → String) (lang : String)
    (keys : List String) (st : StepResult) (tm0 : TranslationMapping)
    (hnd : keys.Nodup)
    (hl : alookup st.tf.translations lang = some tm0)
    (herr : (syncKeys (clientOf f) lang keys st).err = none) :
    (syncKeys (clientOf f) lang keys st).tf.reference = st.tf.reference ∧
    akeys (syncKeys (clientOf f) lang keys st).tf.translations = akeys st.tf.translations ∧
    (∀ lang', lang' ≠ lang →
      alookup (syncKeys (clientOf f) lang keys st).tf.translations lang'
        = alookup st.tf.translations lang') ∧
    ∃ tm', alookup (syncKeys (clientOf f) lang keys st).tf.translations lang = some tm' ∧
      entryFilled f st.tf.reference.translations st.tf.reference.deeplLanguage keys tm0 tm' := by
  induction keys generalizing st tm0 with
  | nil =>
    refine ⟨rfl, rfl, fun _ _ => rfl, tm0, hl, rfl, rfl, ?_, fun _ _ => rfl, fun k => ?_, id⟩
    · intro k hk
      exact absurd hk (List.not_mem_nil k)
    · simp
  | cons key rest ih =>
    have hndr : rest.Nodup := (List.nodup_cons.mp hnd).2
    have hkeyr : key ∉ rest := (List.nodup_cons.mp hnd).1
    by_cases hskip : tlookup tm0.translations key = .vnull
    · by_cases hwt : wellTyped (tlookup st.tf.reference.translations key) = true
      · -- successful fill of `key`, then the rest
        obtain ⟨cs0, hstep⟩ : ∃ cs0, autoTranslateKeyForLang (clientOf f) st.tf lang key
            = ⟨updateLang st.tf lang
                (fun mm => { mm with
                  translations := ainsert mm.translations key
                      (fillValue f st.tf.reference.deeplLanguage tm0.deeplLanguage
                        (tlookup st.tf.reference.translations key)) }), cs0, none⟩ :=
          ⟨_, step_fill f st.tf lang key tm0 hl hskip hwt⟩
        simp only [syncKeys, hstep] at herr ⊢
        set fv := fillValue f st.tf.reference.deeplLanguage tm0.deeplLanguage
          (tlookup st.tf.reference.translations key) with hfv
        set tf1 := updateLang st.tf lang
          (fun mm => { mm with translations := ainsert mm.translations key fv }) with htf1
        set tm1 : TranslationMapping :=
          { tm0 with translations := ainsert tm0.translations key fv } with htm1
        have hl1 : alookup tf1.translations lang = some tm1 := by
          rw [htf1, alookup_updateLang_self, hl]
          rfl
        have href1 : tf1.reference = st.tf.reference := rfl
        obtain ⟨h1, h2, h3, tm', hlt, hd, hlk, hfill, hpres, hmem, hnodup⟩ :=
          ih ⟨tf1, st.calls ++ cs0, none⟩ tm1 hndr hl1 herr
        have hfvn : fv ≠ .vnull := fillValue_ne_vnull f _ _ _ hwt
        refine ⟨h1, by rw [h2]; exact akeys_updateLang st.tf lang _,
          fun lang' hne => by
            rw [h3 lang' hne]
            exact alookup_updateLang_other st.tf lang lang' _ (fun hh => hne hh.symm),
          tm', hlt, hd, hlk, ?_, ?_, ?_, ?_⟩
        · intro k hk hknull
          rcases List.mem_cons.mp hk with hk | hk
          · subst hk
            refine ⟨hwt, ?_⟩
            have htm1k : tlookup tm1.translations k = fv := tlookup_ainsert_self _ _ _
            have hmain : alookup tm'.translations k = alookup tm1.translations k := by
              apply hpres
              right
              rw [htm1k]
              exact hfvn
            have h4 : tlookup tm'.translations k = tlookup tm1.translations k := by
              simp only [tlookup, hmain]
            rw [h4, htm1k, hfv]
          · have hkne : k ≠ key := fun hh => hkeyr (hh ▸ hk)
            have htm1k : tlookup tm1.translations k = tlookup tm0.translations k :=
              tlookup_ainsert_other _ _ _ _ hkne
            obtain ⟨hwtk, hfk⟩ := hfill k hk (by rw [htm1k]; exact hknull)
            exact ⟨hwtk, hfk⟩
        · intro k hk
          have hkne : k ≠ key := by
            rcases hk with hk | hk
            · exact fun hh => hk (hh ▸ List.mem_cons_self key rest)
            · exact fun hh => hk (hh ▸ hskip)
          have htm1k : alookup tm1.translations k = alookup tm0.translations k :=
            alookup_ainsert_other _ _ _ _ hkne
          have : alookup tm'.translations k = alookup tm1.translations k := by
            apply hpres
            rcases hk with hk | hk
            · exact Or.inl (fun hh => hk (List.mem_cons_of_mem key hh))
            · right
              rw [tlookup, htm1k, ← tlookup]
              exact hk
          rw [this, htm1k]
        · intro k
          rw [hmem k]
          have htm1mem : k ∈ akeys tm1.translations ↔ k ∈ akeys tm0.translations ∨ k = key :=
            mem_akeys_ainsert _ _ _ _
          by_cases hkk : k = key
          · subst hkk
            simp only [htm1mem, List.mem_cons]
            constructor
            · intro _
              exact Or.inr ⟨Or.inl trivial, hskip⟩
            · intro _
              exact Or.inl (Or.inr trivial)
          · have htm1k : tlookup tm1.translations k = tlookup tm0.translations k :=
              tlookup_ainsert_other _ _ _ _ hkk
            simp only [htm1mem, htm1k, List.mem_cons]
            constructor
            · rintro ((hh | hh) | ⟨hh1, hh2⟩)
              · exact Or.inl hh
              · exact absurd hh hkk
              · exact Or.inr ⟨Or.inr hh1, hh2⟩
            · rintro (hh | ⟨hh1 | hh1, hh2⟩)
              · exact Or.inl (Or.inl hh)
              · exact absurd hh1 hkk
              · exact Or.inr ⟨hh1, hh2⟩
        · intro hnd0
          exact hnodup (akeys_nodup_ainsert _ _ _ hnd0)
      · -- ill-typed reference value: the run cannot have succeeded
        exfalso
        have hstep := step_err_of_not_wellTyped f st.tf lang key tm0 hl hskip
          (by revert hwt; cases wellTyped (tlookup st.tf.reference.translations key) <;> simp)
        simp only [syncKeys] at herr
        cases hre : (autoTranslateKeyForLang (clientOf f) st.tf lang key).err with
        | none => rw [hre] at hstep; simp at hstep
        | some er =>
          rw [hre] at herr
          cases er <;> simp at herr
    · -- key already holds a non-nil value: skipped
      have hstep := step_skip (clientOf f) st.tf lang key tm0 hl hskip
      simp only [syncKeys, hstep, List.append_nil] at herr ⊢
      obtain ⟨h1, h2, h3, tm', hlt, hd, hlk, hfill, hpres, hmem, hnodup⟩ :=
        ih ⟨st.tf, st.calls, none⟩ tm0 hndr hl herr
      refine ⟨h1, h2, h3, tm', hlt, hd, hlk, ?_, ?_, ?_, hnodup⟩
      · intro k hk hknull
        rcases List.mem_cons.mp hk with hk | hk
        · subst hk
          exact absurd hknull hskip
        · exact hfill k hk hknull
      · intro k hk
        apply hpres
        rcases hk with hk | hk
        · exact Or.inl (fun hh => hk (List.mem_cons_of_mem key hh))
        · exact Or.inr hk
      · intro k
        rw [hmem k]
        constructor
        · rintro (hh | ⟨hh1, hh2⟩)
          · exact Or.inl hh
          · exact Or.inr ⟨List.mem_cons_of_mem key hh1, hh2⟩
        · rintro (hh | ⟨hh1, hh2⟩)
          · exact Or.inl hh
          · rcases List.mem_cons.mp hh1 with hh1 | hh1
            · subst hh1
              exact absurd hh2 hskip
            · exact Or.inr ⟨hh1, hh2⟩

theorem syncLangs_ok_char (f : String → String → String → String)
    (keys langs : List String) (st : StepResult)
    (hnd : langs.Nodup) (hknd : keys.Nodup)
    (herr : (syncLangs (clientOf f) keys langs st).err = none) :
    (syncLangs (clientOf f) keys langs st).tf.reference = st.tf.reference ∧
    akeys (syncLangs (clientOf f) keys langs st).tf.translations = akeys st.tf.translations ∧
    (∀ lang, lang ∉ langs →
      alookup (syncLangs (clientOf f) keys langs st).tf.translations lang
        = alookup st.tf.translations lang) ∧
    (∀ lang tm0, lang ∈ langs → alookup st.tf.translations lang = some tm0 →
      (tm0.deeplLanguage = "" →
        alookup (syncLangs (clientOf f) keys langs st).tf.translations lang = some tm0) ∧
      (tm0.deeplLanguage ≠ "" → ∃ tm',
        alookup (syncLangs (clientOf f) keys langs st).tf.translations lang = some tm' ∧
        entryFilled f st.tf.reference.translations st.tf.reference.deeplLanguage keys tm0 tm')) := by
  induction langs generalizing st with
  | nil =>
    exact ⟨rfl, rfl, fun _ _ => rfl, fun lang tm0 h => absurd h (List.not_mem_nil lang)⟩
  | cons lang rest ih =>
    have hndr : rest.Nodup := (List.nodup_cons.mp hnd).2
    have hlr : lang ∉ rest := (List.nodup_cons.mp hnd).1
    simp only [syncLangs] at herr ⊢
    cases hl : alookup st.tf.translations lang with
    | none =>
      rw [hl] at herr
      dsimp only at herr ⊢
      obtain ⟨h1, h2, h3, h4⟩ := ih st hndr herr
      refine ⟨h1, h2, fun lang' hmem => h3 lang' (fun hh => hmem (List.mem_cons_of_mem lang hh)),
        fun lang' tm0 hmem hl' => ?_⟩
      rcases List.mem_cons.mp hmem with hmem | hmem
      · subst hmem
        rw [hl] at hl'
        exact absurd hl' (by simp)
      · exact h4 lang' tm0 hmem hl'
    | some tm =>
      rw [hl] at herr
      dsimp only at herr ⊢
      by_cases hdl : tm.deeplLanguage = ""
      · rw [if_pos hdl] at herr ⊢
        obtain ⟨h1, h2, h3, h4⟩ := ih st hndr herr
        refine ⟨h1, h2, fun lang' hmem => h3 lang' (fun hh => hmem (List.mem_cons_of_mem lang hh)),
          fun lang' tm0 hmem hl' => ?_⟩
        rcases List.mem_cons.mp hmem with hmem | hmem
        · subst hmem
          rw [hl] at hl'
          injection hl' with hl'
          subst hl'
          refine ⟨fun _ => ?_, fun hne => absurd hdl hne⟩
          rw [h3 lang' hlr, hl]
        · exact h4 lang' tm0 hmem hl'
      · rw [if_neg hdl] at herr ⊢
        cases he : (syncKeys (clientOf f) lang keys st).err with
        | some er =>
          rw [he] at herr
          dsimp only at herr
          rw [he] at herr
          exact absurd herr (by simp)
        | none =>
          rw [he] at herr
          dsimp only at herr ⊢
          obtain ⟨hc1, hc2, hc3, tm1, hlt1, hef1⟩ :=
            syncKeys_ok_char f lang keys st tm hknd hl he
          obtain ⟨h1, h2, h3, h4⟩ := ih (syncKeys (clientOf f) lang keys st) hndr herr
          refine ⟨h1.trans hc1, h2.trans hc2, ?_, ?_⟩
          · intro lang' hmem
            have hne : lang' ≠ lang := fun hh => hmem (hh ▸ List.mem_cons_self lang rest)
            rw [h3 lang' (fun hh => hmem (List.mem_cons_of_mem lang hh)), hc3 lang' hne]
          · intro lang' tm0 hmem hl'
            rcases List.mem_cons.mp hmem with hmem | hmem
            · subst hmem
              rw [hl] at hl'
              injection hl' with hl'
              subst hl'
              refine ⟨fun hdl' => absurd hdl' hdl, fun _ => ⟨tm1, ?_, hef1⟩⟩
              rw [h3 lang' hlr, hlt1]
            · have hne : lang' ≠ lang := fun hh => hlr (hh ▸ hmem)
              have hl'' : alookup (syncKeys (clientOf f) lang keys st).tf.translations lang'
                  = some tm0 := by rw [hc3 lang' hne, hl']
              have h5 := h4 lang' tm0 hmem hl''
              rw [hc1] at h5
              exact h5

theorem autoTranslate_ok_char (f : String → String → String → String) (apiKey : String)
    (langOrder keyOrder : List String) (tf : TranslationFile)
    (hapi : apiKey ≠ "") (hlnd : langOrder.Nodup) (hknd : keyOrder.Nodup)
    (herr : (autoTranslate (clientOf f) apiKey langOrder keyOrder tf).err = none) :
    (autoTranslate (clientOf f) apiKey langOrder keyOrder tf).tf.reference = tf.reference ∧
    akeys (autoTranslate (clientOf f) apiKey langOrder keyOrder tf).tf.translations
      = akeys tf.translations ∧
    (∀ lang, lang ∉ langOrder →
      alookup (autoTranslate (clientOf f) apiKey langOrder keyOrder tf).tf.translations lang
        = alookup tf.translations lang) ∧
    (∀ lang tm0, lang ∈ langOrder → alookup tf.translations lang = some tm0 →
      (tm0.deeplLanguage = "" →
        alookup (autoTranslate (clientOf f) apiKey langOrder keyOrder tf).tf.translations lang
          = some tm0) ∧
      (tm0.deeplLanguage ≠ "" → ∃ tm',
        alookup (autoTranslate (clientOf f) apiKey langOrder keyOrder tf).tf.translations lang
          = some tm' ∧
        entryFilled f tf.reference.translations tf.reference.deeplLanguage keyOrder tm0 tm')) := by
  unfold autoTranslate at herr ⊢
  rw [if_neg hapi] at herr ⊢
  exact syncLangs_ok_char f keyOrder langOrder ⟨tf, [], none⟩ hlnd hknd herr

theorem syncKeys_allskip (client : Client) (lang : String) (keys : List String)
    (st : StepResult) (tm : TranslationMapping)
    (hl : alookup st.tf.translations lang = some tm)
    (hst : st.err = none)
    (hnonull : ∀ k, k ∈ keys → tlookup tm.translations k ≠ .vnull) :
    syncKeys client lang keys st = st := by
  induction keys with
  | nil => rfl
  | cons key rest ih =>
    have hstep := step_skip client st.tf lang key tm hl
      (hnonull key (List.mem_cons_self key rest))
    simp only [syncKeys, hstep, List.append_nil]
    have hsteq : (⟨st.tf, st.calls, none⟩ : StepResult) = st := by
      cases st with
      | mk tfv callsv errv =>
        cases hst
        rfl
    rw [hsteq]
    exact ih (fun k hk => hnonull k (List.mem_cons_of_mem key hk))

theorem syncLangs_allskip (client : Client) (keys langs : List String) (st : StepResult)
    (hst : st.err = none)
    (hskip : ∀ lang, lang ∈ langs → ∀ tm, alookup st.tf.translations lang = some tm →
      tm.deeplLanguage ≠ "" → ∀ k, k ∈ keys → tlookup tm.translations k ≠ .vnull) :
    syncLangs client keys langs st = st := by
  induction langs with
  | nil => rfl
  | cons lang rest ih =>
    simp only [syncLangs]
    cases hl : alookup st.tf.translations lang with
    | none =>
      exact ih (fun l hm tm h1 h2 => hskip l (List.mem_cons_of_mem lang hm) tm h1 h2)
    | some tm =>
      dsimp only
      by_cases hdl : tm.deeplLanguage = ""
      · rw [if_pos hdl]
        exact ih (fun l hm tmm h1 h2 => hskip l (List.mem_cons_of_mem lang hm) tmm h1 h2)
      · rw [if_neg hdl]
        rw [syncKeys_allskip client lang keys st tm hl hst
          (hskip lang (List.mem_cons_self lang rest) tm hl hdl)]
        rw [hst]
        exact ih (fun l hm tmm h1 h2 => hskip l (List.mem_cons_of_mem lang hm) tmm h1 h2)

theorem alookup_mem {α : Type} (l : List (String × α)) (k : String) (v : α)
    (h : alookup l k = some v) : (k, v) ∈ l := by
  induction l with
  | nil => simp [alookup] at h
  | cons p rest ih =>
    by_cases hp : p.1 = k
    · rw [alookup, if_pos hp] at h
      injection h with h
      have : (k, v) = p := by
        cases p
        simp only at hp h
        rw [hp, h]
      rw [this]
      exact List.mem_cons_self p rest
    · rw [alookup, if_neg hp] at h
      exact List.mem_cons_of_mem p (ih h)

/-- C1: after a successful sync with a stub client and a populated API key,
every target entry that has a DeepL language code holds every reference key
with a non-nil value of the same variant as the reference, and every key that
was missing (nil) before the run holds exactly the element-wise stub
translation of the reference value — for sequences, one whose length and
element order are those of the reference sequence.  The reference-key and
language iteration orders are arbitrary enumerations of the respective key
sets, and entries already holding a value of some key must hold one of the
reference's variant (the spec's data-model invariant). -/
theorem C1_sync_fills_missing_keys
    (f : String → String → String → String) (apiKey : String)
    (langOrder keyOrder : List String) (tf : TranslationFile)
    (hapi : apiKey ≠ "")
    (hlo : langOrder.Perm (akeys tf.translations))
    (hko : keyOrder.Perm (akeys tf.reference.translations))
    (hlnd : (akeys tf.translations).Nodup)
    (hknd : (akeys tf.reference.translations).Nodup)
    (hvalid : ∀ p, p ∈ tf.translations → ∀ k, k ∈ akeys tf.reference.translations →
      tlookup p.2.translations k ≠ .vnull →
      sameVariant (tlookup p.2.translations k) (tlookup tf.reference.translations k) = true)
    (herr : (autoTranslate (clientOf f) apiKey langOrder keyOrder tf).err = none) :
    ∀ lang tm tm', alookup tf.translations lang = some tm →
      alookup (autoTranslate (clientOf f) apiKey langOrder keyOrder tf).tf.translations lang
        = some tm' →
      tm.deeplLanguage ≠ "" →
      ∀ k, k ∈ akeys tf.reference.translations →
        tlookup tm'.translations k ≠ .vnull ∧
        sameVariant (tlookup tm'.translations k) (tlookup tf.reference.translations k) = true ∧
        (tlookup tm.translations k = .vnull →
          tlookup tm'.translations k
            = fillValue f tf.reference.deeplLanguage tm.deeplLanguage
                (tlookup tf.reference.translations k)) := by
  intro lang tm tm' hl hl' hdl k hk
  have hmemlang : lang ∈ langOrder :=
    hlo.mem_iff.mpr ((alookup_isSome_iff tf.translations lang).mp (by rw [hl]; rfl))
  have hmemkey : k ∈ keyOrder := hko.mem_iff.mpr hk
  obtain ⟨hc1, hc2, hc3, hc4⟩ := autoTranslate_ok_char f apiKey langOrder keyOrder tf hapi
    (hlo.nodup_iff.mpr hlnd) (hko.nodup_iff.mpr hknd) herr
  obtain ⟨tm2, hlt2, hef⟩ := (hc4 lang tm hmemlang hl).2 hdl
  rw [hl'] at hlt2
  injection hlt2 with hlt2
  subst hlt2
  obtain ⟨hd, hlk, hfill, hpres, hmem, hnodup⟩ := hef
  by_cases hnull : tlookup tm.translations k = .vnull
  · obtain ⟨hwt, heq⟩ := hfill k hmemkey hnull
    refine ⟨?_, ?_, fun _ => heq⟩
    · rw [heq]
      exact fillValue_ne_vnull f _ _ _ hwt
    · rw [heq]
      exact sameVariant_fillValue f _ _ _ hwt
  · have hpk : alookup tm'.translations k = alookup tm.translations k :=
      hpres k (Or.inr hnull)
    have htk : tlookup tm'.translations k = tlookup tm.translations k := by
      simp only [tlookup, hpk]
    refine ⟨by rw [htk]; exact hnull, ?_, fun hh => absurd hh hnull⟩
    rw [htk]
    exact hvalid (lang, tm) (alookup_mem tf.translations lang tm hl) k hk hnull

/-- C1 witness: a concrete successful run over a reference with one scalar
and one sequence key fills both keys of the `de` entry with the stub's
translations. -/
theorem C1_witness :
    (alookup (autoTranslate (clientOf demoStub) "key" ["de"] ["greet", "list"]
        demoTF).tf.translations "de").map
      (fun tm' => (tlookup tm'.translations "greet", tlookup tm'.translations "list"))
      = some (.vstr "DE:hello", .vseq [.estr "DE:a", .estr "DE:b"]) := by
  have h := C1_sync_fills_missing_keys demoStub "key" ["de"] ["greet", "list"] demoTF
    (by decide) (by decide) (by decide) (by decide) (by decide) (by decide) (by decide)
  have hpost : alookup (autoTranslate (clientOf demoStub) "key" ["de"] ["greet", "list"]
      demoTF).tf.translations "de" = some demoFilledDE := by decide
  have hg := h "de" demoDE demoFilledDE (by decide) hpost (by decide) "greet" (by decide)
  have hl := h "de" demoDE demoFilledDE (by decide) hpost (by decide) "list" (by decide)
  rw [hpost]
  dsimp only [Option.map]
  rw [show tlookup demoFilledDE.translations "greet" = .vstr "DE:hello" from
    (hg.2.2 (by decide)).trans (by decide)]
  rw [show tlookup demoFilledDE.translations "list"
      = .vseq [.estr "DE:a", .estr "DE:b"] from
    (hl.2.2 (by decide)).trans (by decide)]

/-- C5 counterexample: a target entry that maps a key to an explicit null has
that key present before sync, yet sync overwrites it with a fresh
translation, so "every key present keeps its value unchanged" fails as
stated. -/
theorem C5_counterexample :
    alookup demoNullTF.translations "de" = some demoNullDE ∧
    alookup demoNullDE.translations "k" = some .vnull ∧
    (alookup (autoTranslate (clientOf demoStub) "key" ["de"] ["k"]
        demoNullTF).tf.translations "de").map
      (fun tm' => alookup tm'.translations "k") = some (some (.vstr "DE:hello")) := by
  refine ⟨by decide, by decide, by decide⟩

/-- C5 amended: sync is additive-only for keys holding non-nil values — every
key present before sync is still present after, the language codes and the
reference are untouched, and every key holding a non-nil value keeps that
value; but a key present with an explicit null value counts as missing to the
sync's non-nil presence test and may be overwritten.  This holds for every
client and every outcome of the run, including aborted ones. -/
theorem C5_sync_additive (client : Client) (apiKey : String)
    (langOrder keyOrder : List String) (tf : TranslationFile) :
    tfMono tf (autoTranslate client apiKey langOrder keyOrder tf).tf :=
  autoTranslate_mono client apiKey langOrder keyOrder tf

/-- C5 witness: on the concrete null-value dictionary, the amended theorem
yields that the reference is untouched by the run. -/
theorem C5_witness :
    (autoTranslate (clientOf demoStub) "key" ["de"] ["k"] demoNullTF).tf.reference
      = demoNullTF.reference :=
  (C5_sync_additive (clientOf demoStub) "key" ["de"] ["k"] demoNullTF).1

/-- C6: running sync again on the dictionary produced by a successful sync,
with the same stub client and unchanged reference, performs no translation
calls and returns the dictionary unchanged with no error — whatever iteration
orders the second run's map traversal happens to use. -/
theorem C6_sync_idempotent (f : String → String → String → String) (apiKey : String)
    (lo1 ko1 lo2 ko2 : List String) (tf : TranslationFile)
    (hapi : apiKey ≠ "")
    (hlo1 : lo1.Perm (akeys tf.translations))
    (hko1 : ko1.Perm (akeys tf.reference.translations))
    (hlnd : (akeys tf.translations).Nodup)
    (hknd : (akeys tf.reference.translations).Nodup)
    (hko2 : ∀ k, k ∈ ko2 → k ∈ akeys tf.reference.translations)
    (herr : (autoTranslate (clientOf f) apiKey lo1 ko1 tf).err = none) :
    autoTranslate (clientOf f) apiKey lo2 ko2
        (autoTranslate (clientOf f) apiKey lo1 ko1 tf).tf
      = ⟨(autoTranslate (clientOf f) apiKey lo1 ko1 tf).tf, [], none⟩ := by
  obtain ⟨hc1, hc2, hc3, hc4⟩ := autoTranslate_ok_char f apiKey lo1 ko1 tf hapi
    (hlo1.nodup_iff.mpr hlnd) (hko1.nodup_iff.mpr hknd) herr
  set res1 := autoTranslate (clientOf f) apiKey lo1 ko1 tf with hres1
  unfold autoTranslate
  rw [if_neg hapi]
  apply syncLangs_allskip
  · rfl
  · intro lang _ tm hl hdl k hk
    dsimp only at hl
    have hmem : lang ∈ akeys tf.translations := by
      rw [← hc2]
      exact (alookup_isSome_iff _ lang).mp (by rw [hl]; rfl)
    have hmemlo1 : lang ∈ lo1 := hlo1.mem_iff.mpr hmem
    obtain ⟨tm0, hl0⟩ : ∃ tm0, alookup tf.translations lang = some tm0 := by
      cases hh : alookup tf.translations lang with
      | none =>
        rw [← alookup_isSome_iff] at hmem
        rw [hh] at hmem
        exact absurd hmem (by simp)
      | some tmx => exact ⟨tmx, rfl⟩
    have hkref : k ∈ akeys tf.reference.translations := hko2 k hk
    have hkko1 : k ∈ ko1 := hko1.mem_iff.mpr hkref
    by_cases hdl0 : tm0.deeplLanguage = ""
    · have hsame := (hc4 lang tm0 hmemlo1 hl0).1 hdl0
      rw [hl] at hsame
      injection hsame with hsame
      subst hsame
      exact absurd hdl0 hdl
    · obtain ⟨tm', hlt', hef⟩ := (hc4 lang tm0 hmemlo1 hl0).2 hdl0
      rw [hl] at hlt'
      injection hlt' with hlt'
      subst hlt'
      obtain ⟨hd, hlk, hfill, hpres, hmem', hnodup⟩ := hef
      by_cases hnull : tlookup tm0.translations k = .vnull
      · obtain ⟨hwt, heq⟩ := hfill k hkko1 hnull
        rw [heq]
        exact fillValue_ne_vnull f _ _ _ hwt
      · have hpk : alookup tm.translations k = alookup tm0.translations k :=
          hpres k (Or.inr hnull)
        have htkk : tlookup tm.translations k = tlookup tm0.translations k := by
          simp only [tlookup, hpk]
        rw [htkk]
        exact hnull

/-- C6 witness: a second run over the concrete demo dictionary, with a
different key order, issues no calls and changes nothing. -/
theorem C6_witness :
    autoTranslate (clientOf demoStub) "key" ["de"] ["list", "greet"]
        (autoTranslate (clientOf demoStub) "key" ["de"] ["greet", "list"] demoTF).tf
      = ⟨(autoTranslate (clientOf demoStub) "key" ["de"] ["greet", "list"] demoTF).tf,
          [], none⟩ :=
  C6_sync_idempotent demoStub "key" ["de"] ["greet", "list"] ["de"] ["list", "greet"] demoTF
    (by decide) (by decide) (by decide) (by decide) (by decide) (by decide) (by decide)

/-- C2 counterexample: the claim says the call fails on a non-success HTTP
response, but `fetchTranslation` never inspects the status code — a 500
response whose body decodes to exactly one translation succeeds. -/
theorem C2_counterexample :
    fetchTranslation (.response 500 (.ok ["bonjour"])) = .ok "bonjour" := rfl

/-- C2 amended: `fetchTranslation` fails on transport failure, on a response
body that does not decode, and when the decoded body does not contain exactly
one translation result; otherwise it returns the single translated text.  The
HTTP status code is never inspected — the result is the same for any two
status codes with the same body. -/
theorem C2_fetch_characterization :
    (∀ m, fetchTranslation (.transportError m) = .error ("executing request: " ++ m)) ∧
    (∀ st m, fetchTranslation (.response st (.error m))
      = .error ("decoding DeepL response: " ++ m)) ∧
    (∀ st t, fetchTranslation (.response st (.ok [t])) = .ok t) ∧
    (∀ st texts, texts.length ≠ 1 → fetchTranslation (.response st (.ok texts))
      = .error ("unexpected number of translations: " ++ toString texts.length)) ∧
    (∀ st st' d, fetchTranslation (.response st d) = fetchTranslation (.response st' d)) := by
  refine ⟨fun m => rfl, fun st m => rfl, fun st t => by simp [fetchTranslation],
    fun st texts h => by simp [fetchTranslation, h], fun st st' d => ?_⟩
  cases d <;> rfl

/-- C2 witness: the characterization evaluated at concrete inputs. -/
theorem C2_witness :
    fetchTranslation (.transportError "x") = .error "executing request: x" ∧
    fetchTranslation (.response 200 (.ok ["hi"])) = .ok "hi" ∧
    fetchTranslation (.response 200 (.ok []))
      = .error "unexpected number of translations: 0" :=
  ⟨C2_fetch_characterization.1 "x", C2_fetch_characterization.2.2.1 200 "hi",
    C2_fetch_characterization.2.2.2.1 200 [] (by decide)⟩

theorem step_unsupported (client : Client) (tf : TranslationFile) (lang key : String)
    (tm : TranslationMapping)
    (hl : alookup tf.translations lang = some tm)
    (hnull : tlookup tm.translations key = .vnull)
    (hbad : isScalarOrSeq (tlookup tf.reference.translations key) = false) :
    autoTranslateKeyForLang client tf lang key
      = ⟨tf, [], some (.emsg ("unexpected translation type "
          ++ goTypeName (tlookup tf.reference.translations key)))⟩ := by
  unfold autoTranslateKeyForLang
  rw [hl]
  dsimp only
  rw [if_neg (by simp [hnull])]
  cases href : tlookup tf.reference.translations key with
  | vstr s => rw [href] at hbad; simp [isScalarOrSeq] at hbad
  | vseq es => rw [href] at hbad; simp [isScalarOrSeq] at hbad
  | vnull => rfl
  | vother t => rfl

/-- C4 counterexample: a missing key whose reference value is a sequence
containing a non-string element is neither a scalar text nor an ordered
sequence of text, yet sync does not fail with an unsupported-value-type
error naming the key — it crashes with the type-assertion panic. -/
theorem C4_counterexample :
    (autoTranslate (clientOf demoStub) "key" ["de"] ["k"] demoBadSeqTF).err
      = some (.epanic "interface conversion: interface \x7b\x7d is int, not string") := by
  decide

/-- C4 amended: for a missing key whose reference value is neither a string
nor a sequence at all (an explicit null, or a value of another Go type), the
key loop fails with an "unexpected translation type" error wrapped as
`translating lang:key` — naming the offending key — and the dictionary is
not mutated, so the key remains absent from the target entry.  (A sequence
containing a non-text element instead crashes via the element type
assertion; see C10.) -/
theorem C4_unsupported_type (client : Client) (st : StepResult) (lang key : String)
    (rest : List String) (tm : TranslationMapping)
    (hl : alookup st.tf.translations lang = some tm)
    (hnull : tlookup tm.translations key = .vnull)
    (hbad : isScalarOrSeq (tlookup st.tf.reference.translations key) = false) :
    (syncKeys client lang (key :: rest) st).tf = st.tf ∧
    (syncKeys client lang (key :: rest) st).err
      = some (.emsg (wrapf lang key ("unexpected translation type "
          ++ goTypeName (tlookup st.tf.reference.translations key)))) := by
  have hstep := step_unsupported client st.tf lang key tm hl hnull hbad
  simp only [syncKeys, hstep]
  exact ⟨by trivial, by trivial⟩

/-- C4 witness: on a reference mapping `k` to null, the one-key loop for the
`de` entry stops with the wrapped unsupported-type error and an unchanged
dictionary. -/
theorem C4_witness :
    (syncKeys (clientOf demoStub) "de" ["k"] ⟨demoNullValTF, [], none⟩).tf = demoNullValTF ∧
    (syncKeys (clientOf demoStub) "de" ["k"] ⟨demoNullValTF, [], none⟩).err
      = some (.emsg "translating de:k: unexpected translation type <nil>") := by
  have h := C4_unsupported_type (clientOf demoStub) ⟨demoNullValTF, [], none⟩ "de" "k" []
    demoDE (by decide) (by decide) (by decide)
  exact ⟨h.1, h.2.trans (by decide)⟩

theorem translateSeq_nopanic (client : Client) (src dest : String) (es : List TElem)
    (h : es.all isText = true) (er : SyncErr) (cs : List Call)
    (heq : translateSeq client src dest es = .error (er, cs)) : ∃ m, er = .emsg m := by
  induction es generalizing er cs with
  | nil => simp [translateSeq] at heq
  | cons e rest ih =>
    rw [List.all_cons, Bool.and_eq_true] at h
    obtain ⟨he, hrest⟩ := h
    cases e with
    | estr s =>
      rw [translateSeq] at heq
      cases hc : client src dest s with
      | error m =>
        rw [hc] at heq
        injection heq with heq2
        injection heq2 with h3 h4
        exact ⟨m, h3.symm⟩
      | ok t =>
        rw [hc] at heq
        dsimp only at heq
        cases hr : translateSeq client src dest rest with
        | error pr =>
          rcases pr with ⟨er2, cs2⟩
          rw [hr] at heq
          dsimp only at heq
          injection heq with heq2
          injection heq2 with h3 h4
          obtain ⟨m, hm⟩ := ih hrest er2 cs2 hr
          exact ⟨m, h3 ▸ hm⟩
        | ok pr =>
          rcases pr with ⟨ts, cs2⟩
          rw [hr] at heq
          dsimp only at heq
          cases heq
    | enull => simp [isText] at he
    | eother t => simp [isText] at he

theorem step_nopanic (client : Client) (tf : TranslationFile) (lang key : String)
    (tm : TranslationMapping)
    (hl : alookup tf.translations lang = some tm)
    (hseq : ∀ es, tlookup tf.reference.translations key = .vseq es → es.all isText = true) :
    isPanicOpt (autoTranslateKeyForLang client tf lang key).err = false := by
  unfold autoTranslateKeyForLang
  rw [hl]
  dsimp only
  by_cases hskip : tlookup tm.translations key ≠ .vnull
  · rw [if_pos hskip]
    rfl
  · rw [if_neg hskip]
    cases href : tlookup tf.reference.translations key with
    | vstr s =>
      dsimp only
      cases client tf.reference.deeplLanguage tm.deeplLanguage s <;> rfl
    | vseq es =>
      dsimp only
      cases hr : translateSeq client tf.reference.deeplLanguage tm.deeplLanguage es with
      | ok pr => rcases pr with ⟨ts, cs⟩; rfl
      | error pr =>
        rcases pr with ⟨er, cs⟩
        obtain ⟨m, hm⟩ := translateSeq_nopanic client _ _ es (hseq es href) er cs hr
        subst hm
        rfl
    | vnull => rfl
    | vother t => rfl

theorem syncKeys_nopanic (client : Client) (lang : String) (keys : List String)
    (st : StepResult)
    (hl : (alookup st.tf.translations lang).isSome = true)
    (hst : isPanicOpt st.err = false)
    (hseq : ∀ p, p ∈ st.tf.reference.translations → seqElemsText p.2 = true) :
    isPanicOpt (syncKeys client lang keys st).err = false := by
  induction keys generalizing st with
  | nil => exact hst
  | cons key rest ih =>
    obtain ⟨tm, htm⟩ : ∃ tm, alookup st.tf.translations lang = some tm := by
      cases hh : alookup st.tf.translations lang with
      | none => rw [hh] at hl; simp at hl
      | some tmx => exact ⟨tmx, rfl⟩
    have hseqk : ∀ es, tlookup st.tf.reference.translations key = .vseq es →
        es.all isText = true := by
      intro es hes
      cases hh : alookup st.tf.reference.translations key with
      | none => rw [tlookup, hh] at hes; cases hes
      | some v =>
        rw [tlookup, hh] at hes
        dsimp only [Option.getD] at hes
        subst hes
        have := hseq (key, TValue.vseq es) (alookup_mem _ _ _ hh)
        simpa [seqElemsText] using this
    have hnp := step_nopanic client st.tf lang key tm htm hseqk
    simp only [syncKeys]
    cases herr : (autoTranslateKeyForLang client st.tf lang key).err with
    | some er =>
      cases er with
      | emsg m => rfl
      | epanic m => rw [herr] at hnp; simp [isPanicOpt] at hnp
    | none =>
      have hmono := step_mono client st.tf lang key
      obtain ⟨tm2, htm2, _⟩ := hmono.2.2 lang tm htm
      apply ih
      · rw [htm2]; rfl
      · rfl
      · rw [hmono.1]
        exact hseq

theorem syncLangs_nopanic (client : Client) (keys langs : List String) (st : StepResult)
    (hst : isPanicOpt st.err = false)
    (hseq : ∀ p, p ∈ st.tf.reference.translations → seqElemsText p.2 = true) :
    isPanicOpt (syncLangs client keys langs st).err = false := by
  induction langs generalizing st with
  | nil => exact hst
  | cons lang rest ih =>
    simp only [syncLangs]
    cases hlk : alookup st.tf.translations lang with
    | none => exact ih st hst hseq
    | some tm =>
      dsimp only
      by_cases hdl : tm.deeplLanguage = ""
      · rw [if_pos hdl]
        exact ih st hst hseq
      · rw [if_neg hdl]
        have hnp := syncKeys_nopanic client lang keys st (by rw [hlk]; rfl) hst hseq
        cases herr : (syncKeys client lang keys st).err with
        | some er =>
          dsimp only
          exact hnp
        | none =>
          have hmono := syncKeys_mono client lang keys st
          apply ih
          · rw [herr]; rfl
          · rw [hmono.1]
            exact hseq

/-- C10: the sync's presence test and sequence dispatch, made precise.
First, a key present in a target entry but mapped to an explicit null is
treated as missing: the key loop issues a fresh translation call and
overwrites the null with the stub's translation.  Second, when every
sequence-valued reference entry contains only string elements, no run of
`autoTranslate` can stop with a runtime panic — the element type assertion
is unreachable.  Third, a missing key whose reference sequence contains a
non-string element makes the key step stop with the type-assertion panic
rather than the unsupported-value-type error. -/
theorem C10_null_presence_and_assertion :
    (∀ (f : String → String → String → String) (tf : TranslationFile) (lang key : String)
      (tm : TranslationMapping) (s : String),
      alookup tf.translations lang = some tm →
      alookup tm.translations key = some .vnull →
      tlookup tf.reference.translations key = .vstr s →
      autoTranslateKeyForLang (clientOf f) tf lang key
        = ⟨updateLang tf lang
              (fun mm => { mm with
                translations := ainsert mm.translations key
                    (.vstr (f tf.reference.deeplLanguage tm.deeplLanguage s)) }),
            [(tf.reference.deeplLanguage, tm.deeplLanguage, s)], none⟩) ∧
    (∀ (client : Client) (apiKey : String) (langOrder keyOrder : List String)
      (tf : TranslationFile),
      (∀ p, p ∈ tf.reference.translations → seqElemsText p.2 = true) →
      isPanicOpt (autoTranslate client apiKey langOrder keyOrder tf).err = false) ∧
    (∀ (f : String → String → String → String) (tf : TranslationFile) (lang key : String)
      (tm : TranslationMapping) (es : List TElem),
      alookup tf.translations lang = some tm →
      tlookup tm.translations key = .vnull →
      tlookup tf.reference.translations key = .vseq es →
      es.all isText = false →
      isPanicOpt (autoTranslateKeyForLang (clientOf f) tf lang key).err = true) := by
  refine ⟨?_, ?_, ?_⟩
  · intro f tf lang key tm s hl hnull href
    have hfill := step_fill f tf lang key tm hl (by rw [tlookup, hnull]; rfl) (by rw [href]; rfl)
    rw [href] at hfill
    rw [hfill]
    unfold autoTranslateKeyForLang
    rw [hl]
    dsimp only
    rw [if_neg (by rw [tlookup, hnull]; simp)]
    rw [href]
    simp [clientOf, fillValue]
  · intro client apiKey langOrder keyOrder tf hseq
    unfold autoTranslate
    by_cases hk : apiKey = ""
    · rw [if_pos hk]; rfl
    · rw [if_neg hk]
      exact syncLangs_nopanic client keyOrder langOrder ⟨tf, [], none⟩ rfl hseq
  · intro f tf lang key tm es hl hnull href hbad
    unfold autoTranslateKeyForLang
    rw [hl]
    dsimp only
    rw [if_neg (by simp [hnull])]
    rw [href]
    obtain ⟨m, cs, heq⟩ := translateSeq_clientOf_panic f
      tf.reference.deeplLanguage tm.deeplLanguage es hbad
    dsimp only
    rw [heq]
    rfl

/-- C10 witness: on concrete dictionaries, the null-valued key is overwritten
with a fresh translation and one call is issued; the all-text demo dictionary
never panics; and the bad-sequence dictionary panics at the key step. -/
theorem C10_witness :
    autoTranslateKeyForLang (clientOf demoStub) demoNullTF "de" "k"
      = ⟨updateLang demoNullTF "de"
            (fun mm => { mm with
              translations := ainsert mm.translations "k" (.vstr "DE:hello") }),
          [("EN", "DE", "hello")], none⟩ ∧
    isPanicOpt (autoTranslate (clientOf demoStub) "key" ["de"] ["greet", "list"]
      demoTF).err = false ∧
    isPanicOpt (autoTranslateKeyForLang (clientOf demoStub) demoBadSeqTF "de" "k").err
      = true := by
  refine ⟨?_, ?_, ?_⟩
  · exact (C10_null_presence_and_assertion.1 demoStub demoNullTF "de" "k" demoNullDE "hello"
      (by decide) (by decide) (by decide)).trans (by decide)
  · exact C10_null_presence_and_assertion.2.1 (clientOf demoStub) "key" ["de"]
      ["greet", "list"] demoTF (by decide)
  · exact C10_null_presence_and_assertion.2.2 demoStub demoBadSeqTF "de" "k" demoDE
      [.eother "int"] (by decide) (by decide) (by decide) (by decide)

theorem self_ne_append_tmp (s : String) : ¬ s = s ++ ".tmp" := by
  intro h
  have hlen := congrArg String.length h
  rw [String.length_append] at hlen
  rw [show (".tmp" : String).length = 4 from rfl] at hlen
  omega

theorem fsRead_write_other (fs : FS) (p q : String) (c : String) (h : q ≠ p) :
    fsRead (fsWrite fs p c) q = fsRead fs q :=
  alookup_ainsert_other fs.files p q c h

/-- C3: the dictionary file on disk is byte-for-byte unchanged whenever the
run stops at the load stage, the sync stage, or inside the save step before
its final rename (temp-file creation failure or encoding failure); moreover
a run stopping at load or sync leaves the whole file system untouched.  The
YAML codec is abstracted as the `dec`/`enc` parameters, so this holds for
every encoder and decoder. -/
theorem C3_no_partial_persistence (client : Client) (apiKey : String)
    (langOrder keyOrder : List String)
    (dec : String → Except String TranslationFile)
    (enc : TranslationFile → Except String String)
    (saveCreateFault renderCreateFault : Bool) (fs : FS) (tfPath outPath : String)
    (h : (runMain client apiKey langOrder keyOrder dec enc saveCreateFault
            renderCreateFault fs tfPath outPath).stage = Stage.load ∨
         (runMain client apiKey langOrder keyOrder dec enc saveCreateFault
            renderCreateFault fs tfPath outPath).stage = Stage.sync ∨
         (runMain client apiKey langOrder keyOrder dec enc saveCreateFault
            renderCreateFault fs tfPath outPath).stage = Stage.save) :
    fsRead (runMain client apiKey langOrder keyOrder dec enc saveCreateFault
        renderCreateFault fs tfPath outPath).fs tfPath = fsRead fs tfPath ∧
    ((runMain client apiKey langOrder keyOrder dec enc saveCreateFault
        renderCreateFault fs tfPath outPath).stage = Stage.load ∨
     (runMain client apiKey langOrder keyOrder dec enc saveCreateFault
        renderCreateFault fs tfPath outPath).stage = Stage.sync →
      (runMain client apiKey langOrder keyOrder dec enc saveCreateFault
        renderCreateFault fs tfPath outPath).fs = fs) := by
  unfold runMain at h ⊢
  cases hload : loadTranslationFile dec fs tfPath with
  | error m =>
    exact ⟨rfl, fun _ => rfl⟩
  | ok tf =>
    rw [hload] at h
    dsimp only at h ⊢
    cases herr : (autoTranslate client apiKey langOrder keyOrder tf).err with
    | some e =>
      exact ⟨rfl, fun _ => rfl⟩
    | none =>
      rw [herr] at h
      dsimp only at h ⊢
      unfold saveTranslationFile at h ⊢
      by_cases hcf : saveCreateFault
      · rw [if_pos hcf] at h ⊢
        exact ⟨rfl, fun _ => rfl⟩
      · rw [if_neg hcf] at h ⊢
        cases henc : enc (autoTranslate client apiKey langOrder keyOrder tf).tf with
        | error m =>
          dsimp only at h ⊢
          refine ⟨fsRead_write_other fs (tfPath ++ ".tmp") tfPath "" ?_, ?_⟩
          · exact self_ne_append_tmp tfPath
          · intro hh
            rcases hh with hh | hh <;> cases hh
        | ok data =>
          rw [henc] at h
          dsimp only at h ⊢
          unfold renderJSFile at h ⊢
          by_cases hrf : renderCreateFault
          · rw [if_pos hrf] at h
            dsimp only at h
            rcases h with h | h | h <;> cases h
          · rw [if_neg hrf] at h
            cases hrender : renderJS (renderView
                (autoTranslate client apiKey langOrder keyOrder tf).tf) with
            | error m =>
              rw [hrender] at h
              dsimp only at h
              rcases h with h | h | h <;> cases h
            | ok out =>
              rw [hrender] at h
              dsimp only at h
              rcases h with h | h | h <;> cases h

/-- C3 witness: a run over an empty file system fails at load and leaves the
file system untouched. -/
theorem C3_witness :
    fsRead (runMain (clientOf demoStub) "key" ["de"] ["k"]
        (fun _ => .error "bad") (fun _ => .ok "") false false
        ⟨[]⟩ "i18n.yaml" "langs.js").fs "i18n.yaml" = fsRead ⟨[]⟩ "i18n.yaml" ∧
    (runMain (clientOf demoStub) "key" ["de"] ["k"]
        (fun _ => .error "bad") (fun _ => .ok "") false false
        ⟨[]⟩ "i18n.yaml" "langs.js").fs = ⟨[]⟩ := by
  have h := C3_no_partial_persistence (clientOf demoStub) "key" ["de"] ["k"]
    (fun _ => .error "bad") (fun _ => .ok "") false false ⟨[]⟩ "i18n.yaml" "langs.js"
    (Or.inl (by decide))
  exact ⟨h.1, h.2 (Or.inl (by decide))⟩

theorem insertSorted_perm {α : Type} (p : String × α) (l : List (String × α)) :
    (insertSorted p l).Perm (p :: l) := by
  induction l with
  | nil => exact List.Perm.refl _
  | cons q rest ih =>
    unfold insertSorted
    by_cases h : p.1 < q.1
    · rw [if_pos h]
    · rw [if_neg h]
      exact (ih.cons q).trans (List.Perm.swap p q rest)

theorem sortByKey_perm {α : Type} (l : List (String × α)) : (sortByKey l).Perm l := by
  induction l with
  | nil => exact List.Perm.refl _
  | cons p rest ih =>
    exact (insertSorted_perm p (sortByKey rest)).trans (ih.cons p)

theorem insertSorted_sorted {α : Type} (p : String × α) (l : List (String × α))
    (h : l.Pairwise (fun a b => a.1 ≤ b.1)) :
    (insertSorted p l).Pairwise (fun a b => a.1 ≤ b.1) := by
  induction l with
  | nil => simp [insertSorted]
  | cons q rest ih =>
    rw [List.pairwise_cons] at h
    obtain ⟨hq, hrest⟩ := h
    unfold insertSorted
    by_cases hlt : p.1 < q.1
    · rw [if_pos hlt]
      refine List.Pairwise.cons ?_ (List.Pairwise.cons hq hrest)
      intro b hb
      rcases List.mem_cons.mp hb with hb | hb
      · subst hb
        exact le_of_lt hlt
      · exact (le_of_lt hlt).trans (hq b hb)
    · rw [if_neg hlt]
      refine List.Pairwise.cons ?_ (ih hrest)
      intro b hb
      have hmem : b = p ∨ b ∈ rest := by
        have := (insertSorted_perm p rest).mem_iff.mp hb
        simpa using this
      rcases hmem with hb2 | hb2
      · subst hb2
        exact le_of_not_lt hlt
      · exact hq b hb2

theorem sortByKey_sorted {α : Type} (l : List (String × α)) :
    (sortByKey l).Pairwise (fun a b => a.1 ≤ b.1) := by
  induction l with
  | nil => exact List.Pairwise.nil
  | cons p rest ih => exact insertSorted_sorted p (sortByKey rest) ih

theorem mem_alookup {α : Type} :
    ∀ (l : List (String × α)), (akeys l).Nodup → ∀ k v, (k, v) ∈ l → alookup l k = some v := by
  intro l
  induction l with
  | nil =>
    intro _ k v h
    cases h
  | cons p rest ih =>
    intro nd k v hmem
    rw [show akeys (p :: rest) = p.1 :: akeys rest from rfl, List.nodup_cons] at nd
    rcases List.mem_cons.mp hmem with hmem | hmem
    · rw [← hmem]
      simp [alookup]
    · have hp : p.1 ≠ k := by
        intro hh
        apply nd.1
        rw [hh]
        exact List.mem_map.mpr ⟨(k, v), hmem, rfl⟩
      rw [alookup, if_neg hp]
      exact ih nd.2 k v hmem

theorem alookup_perm {α : Type} (l1 l2 : List (String × α)) (h : l1.Perm l2)
    (nd : (akeys l1).Nodup) (k : String) : alookup l1 k = alookup l2 k := by
  have nd2 : (akeys l2).Nodup := ((h.map Prod.fst).nodup_iff).mp nd
  cases h1 : alookup l1 k with
  | some v =>
    exact (mem_alookup l2 nd2 k v (h.mem_iff.mp (alookup_mem l1 k v h1))).symm
  | none =>
    cases h2 : alookup l2 k with
    | none => rfl
    | some v =>
      have := alookup_mem l2 k v h2
      have hmem := h.mem_iff.mpr this
      rw [mem_alookup l1 nd k v hmem] at h1
      cases h1

theorem sorted_nodup_ext {α : Type} :
    ∀ (l1 l2 : List (String × α)),
    l1.Pairwise (fun a b => a.1 ≤ b.1) → l2.Pairwise (fun a b => a.1 ≤ b.1) →
    (akeys l1).Nodup → (akeys l2).Nodup →
    (∀ k, alookup l1 k = alookup l2 k) → l1 = l2 := by
  intro l1
  induction l1 with
  | nil =>
    intro l2 _ _ _ _ hlk
    cases l2 with
    | nil => rfl
    | cons q rest2 =>
      have := hlk q.1
      simp [alookup] at this
  | cons p rest1 ih =>
    intro l2 hs1 hs2 nd1 nd2 hlk
    cases l2 with
    | nil =>
      have := hlk p.1
      simp [alookup] at this
    | cons q rest2 =>
      have h1 : alookup (q :: rest2) p.1 = some p.2 := by
        rw [← hlk p.1]
        simp [alookup]
      have h2 : alookup (p :: rest1) q.1 = some q.2 := by
        rw [hlk q.1]
        simp [alookup]
      have hmem1 : p.1 ∈ akeys (q :: rest2) :=
        (alookup_isSome_iff _ _).mp (by rw [h1]; rfl)
      have hmem2 : q.1 ∈ akeys (p :: rest1) :=
        (alookup_isSome_iff _ _).mp (by rw [h2]; rfl)
      rw [List.pairwise_cons] at hs1 hs2
      have hq_le_p : q.1 ≤ p.1 := by
        rcases List.mem_cons.mp hmem1 with hh | hh
        · exact le_of_eq hh.symm
        · obtain ⟨b, hb, hbe⟩ := List.mem_map.mp hh
          rw [← hbe]
          exact hs2.1 b hb
      have hp_le_q : p.1 ≤ q.1 := by
        rcases List.mem_cons.mp hmem2 with hh | hh
        · exact le_of_eq hh.symm
        · obtain ⟨b, hb, hbe⟩ := List.mem_map.mp hh
          rw [← hbe]
          exact hs1.1 b hb
      have hkey : p.1 = q.1 := le_antisymm hp_le_q hq_le_p
      have hval : q.2 = p.2 := by
        rw [alookup, if_pos hkey.symm] at h1
        injection h1
      have hpq : p = q := by
        cases p
        cases q
        simp only at hkey hval
        rw [hkey, hval]
      subst hpq
      rw [show akeys (p :: rest1) = p.1 :: akeys rest1 from rfl, List.nodup_cons] at nd1
      rw [show akeys (p :: rest2) = p.1 :: akeys rest2 from rfl, List.nodup_cons] at nd2
      have htail : rest1 = rest2 := by
        apply ih rest2 hs1.2 hs2.2 nd1.2 nd2.2
        intro k
        by_cases hk : k = p.1
        · subst hk
          rw [(alookup_eq_none_iff rest1 p.1).mpr nd1.1,
            (alookup_eq_none_iff rest2 p.1).mpr nd2.1]
        · have := hlk k
          rw [alookup, if_neg (fun hh => hk hh.symm), alookup,
            if_neg (fun hh => hk hh.symm)] at this
          exact this
      rw [htail]

theorem sortByKey_ext {α : Type} (m1 m2 : List (String × α))
    (nd1 : (akeys m1).Nodup) (nd2 : (akeys m2).Nodup)
    (hlk : ∀ k, alookup m1 k = alookup m2 k) : sortByKey m1 = sortByKey m2 := by
  apply sorted_nodup_ext (sortByKey m1) (sortByKey m2) (sortByKey_sorted m1)
    (sortByKey_sorted m2)
  · exact (((sortByKey_perm m1).map Prod.fst).nodup_iff).mpr nd1
  · exact (((sortByKey_perm m2).map Prod.fst).nodup_iff).mpr nd2
  · intro k
    rw [alookup_perm _ _ (sortByKey_perm m1)
      ((((sortByKey_perm m1).map Prod.fst).nodup_iff).mpr nd1) k,
      alookup_perm _ _ (sortByKey_perm m2)
      ((((sortByKey_perm m2).map Prod.fst).nodup_iff).mpr nd2) k]
    exact hlk k

theorem alookup_map_value {α β : Type} (l : List (String × α)) (g : String → α → β)
    (k : String) :
    alookup (l.map (fun p => (p.1, g p.1 p.2))) k = (alookup l k).map (g k) := by
  induction l with
  | nil => simp [alookup]
  | cons p rest ih =>
    by_cases hp : p.1 = k
    · subst hp
      simp [alookup]
    · simp [alookup, hp, ih]

theorem insertSorted_map_value {α β : Type} (p : String × α) (l : List (String × α))
    (g : String → α → β) :
    insertSorted (p.1, g p.1 p.2) (l.map (fun q => (q.1, g q.1 q.2)))
      = (insertSorted p l).map (fun q => (q.1, g q.1 q.2)) := by
  induction l with
  | nil => rfl
  | cons q rest ih =>
    simp only [List.map_cons]
    unfold insertSorted
    by_cases h : p.1 < q.1
    · rw [if_pos h, if_pos h]
      rfl
    · rw [if_neg h, if_neg h]
      rw [List.map_cons, ih]

theorem sortByKey_map_value {α β : Type} (l : List (String × α)) (g : String → α → β) :
    sortByKey (l.map (fun q => (q.1, g q.1 q.2)))
      = (sortByKey l).map (fun q => (q.1, g q.1 q.2)) := by
  induction l with
  | nil => rfl
  | cons p rest ih =>
    simp only [List.map_cons, sortByKey]
    rw [ih, insertSorted_map_value]

theorem exceptMapList_congr {α β : Type} (g : α → Except String β) :
    ∀ (l1 l2 : List α), l1.map g = l2.map g → exceptMapList g l1 = exceptMapList g l2 := by
  intro l1
  induction l1 with
  | nil =>
    intro l2 h
    cases l2 with
    | nil => rfl
    | cons b rest2 => cases h
  | cons a rest1 ih =>
    intro l2 h
    cases l2 with
    | nil => cases h
    | cons b rest2 =>
      rw [List.map_cons, List.map_cons] at h
      injection h with h1 h2
      unfold exceptMapList
      rw [← h1, ih rest2 h2]

theorem alookup_of_tlookup_ne (m : Translation) (k : String)
    (h : tlookup m k ≠ .vnull) : alookup m k = some (tlookup m k) := by
  cases hh : alookup m k with
  | none =>
    rw [tlookup, hh] at h
    exact absurd rfl h
  | some v =>
    rw [tlookup, hh]
    rfl

theorem akeys_map_value {α β : Type} (l : List (String × α)) (g : String → α → β) :
    akeys (l.map (fun p => (p.1, g p.1 p.2))) = akeys l := by
  simp only [akeys, List.map_map]
  apply List.map_congr_left
  intro p _
  rfl

theorem runs_agree (f : String → String → String → String) (apiKey : String)
    (lo1 ko1 lo2 ko2 : List String) (tf : TranslationFile)
    (hapi : apiKey ≠ "")
    (hlo1 : lo1.Perm (akeys tf.translations))
    (hko1 : ko1.Perm (akeys tf.reference.translations))
    (hlo2 : lo2.Perm (akeys tf.translations))
    (hko2 : ko2.Perm (akeys tf.reference.translations))
    (hlnd : (akeys tf.translations).Nodup)
    (hknd : (akeys tf.reference.translations).Nodup)
    (hend : ∀ p, p ∈ tf.translations → (akeys p.2.translations).Nodup)
    (herr1 : (autoTranslate (clientOf f) apiKey lo1 ko1 tf).err = none)
    (herr2 : (autoTranslate (clientOf f) apiKey lo2 ko2 tf).err = none) :
    ∀ lang,
      (alookup (autoTranslate (clientOf f) apiKey lo1 ko1 tf).tf.translations lang = none ∧
       alookup (autoTranslate (clientOf f) apiKey lo2 ko2 tf).tf.translations lang = none) ∨
      (∃ tm1 tm2,
        alookup (autoTranslate (clientOf f) apiKey lo1 ko1 tf).tf.translations lang = some tm1 ∧
        alookup (autoTranslate (clientOf f) apiKey lo2 ko2 tf).tf.translations lang = some tm2 ∧
        tm1.deeplLanguage = tm2.deeplLanguage ∧ tm1.languageKey = tm2.languageKey ∧
        (∀ k, alookup tm1.translations k = alookup tm2.translations k) ∧
        (akeys tm1.translations).Nodup ∧ (akeys tm2.translations).Nodup) := by
  intro lang
  obtain ⟨hc1a, hc2a, hc3a, hc4a⟩ := autoTranslate_ok_char f apiKey lo1 ko1 tf hapi
    (hlo1.nodup_iff.mpr hlnd) (hko1.nodup_iff.mpr hknd) herr1
  obtain ⟨hc1b, hc2b, hc3b, hc4b⟩ := autoTranslate_ok_char f apiKey lo2 ko2 tf hapi
    (hlo2.nodup_iff.mpr hlnd) (hko2.nodup_iff.mpr hknd) herr2
  by_cases hmem : lang ∈ akeys tf.translations
  · obtain ⟨tm0, hl0⟩ : ∃ tm0, alookup tf.translations lang = some tm0 := by
      cases hh : alookup tf.translations lang with
      | none => exact absurd ((alookup_eq_none_iff _ _).mp hh) (fun hc => hc hmem)
      | some tmx => exact ⟨tmx, rfl⟩
    have hnd0 : (akeys tm0.translations).Nodup :=
      hend (lang, tm0) (alookup_mem tf.translations lang tm0 hl0)
    by_cases hdl : tm0.deeplLanguage = ""
    · refine Or.inr ⟨tm0, tm0, (hc4a lang tm0 (hlo1.mem_iff.mpr hmem) hl0).1 hdl,
        (hc4b lang tm0 (hlo2.mem_iff.mpr hmem) hl0).1 hdl, rfl, rfl,
        fun _ => rfl, hnd0, hnd0⟩
    · obtain ⟨tma, hlta, hefa⟩ := (hc4a lang tm0 (hlo1.mem_iff.mpr hmem) hl0).2 hdl
      obtain ⟨tmb, hltb, hefb⟩ := (hc4b lang tm0 (hlo2.mem_iff.mpr hmem) hl0).2 hdl
      obtain ⟨hda, hka, hfilla, hpresa, hmema, hndsa⟩ := hefa
      obtain ⟨hdb, hkb, hfillb, hpresb, hmemb, hndsb⟩ := hefb
      refine Or.inr ⟨tma, tmb, hlta, hltb, hda.trans hdb.symm, hka.trans hkb.symm,
        ?_, hndsa hnd0, hndsb hnd0⟩
      intro k
      by_cases hnull : tlookup tm0.translations k = .vnull
      · by_cases hkref : k ∈ akeys tf.reference.translations
        · obtain ⟨hwta, heqa⟩ := hfilla k (hko1.mem_iff.mpr hkref) hnull
          obtain ⟨hwtb, heqb⟩ := hfillb k (hko2.mem_iff.mpr hkref) hnull
          rw [alookup_of_tlookup_ne tma.translations k
              (by rw [heqa]; exact fillValue_ne_vnull f _ _ _ hwta),
            alookup_of_tlookup_ne tmb.translations k
              (by rw [heqb]; exact fillValue_ne_vnull f _ _ _ hwtb),
            heqa, heqb]
        · have ha := hpresa k (Or.inl (fun hh => hkref (hko1.mem_iff.mp hh)))
          have hb := hpresb k (Or.inl (fun hh => hkref (hko2.mem_iff.mp hh)))
          rw [ha, hb]
      · rw [hpresa k (Or.inr hnull), hpresb k (Or.inr hnull)]
  · have hno : alookup tf.translations lang = none := (alookup_eq_none_iff _ _).mpr hmem
    refine Or.inl ⟨?_, ?_⟩
    · rw [hc3a lang (fun hh => hmem (hlo1.mem_iff.mp hh)), hno]
    · rw [hc3b lang (fun hh => hmem (hlo2.mem_iff.mp hh)), hno]

theorem blockOfEntry_congr (lang : String) (tm1 tm2 : TranslationMapping)
    (nd1 : (akeys tm1.translations).Nodup) (nd2 : (akeys tm2.translations).Nodup)
    (hlk : ∀ k, alookup tm1.translations k = alookup tm2.translations k) :
    blockOfEntry (lang, tm1) = blockOfEntry (lang, tm2) := by
  unfold blockOfEntry translationToJSON jsonOfTranslation
  rw [show sortByKey tm1.translations = sortByKey tm2.translations from
    sortByKey_ext tm1.translations tm2.translations nd1 nd2 hlk]

theorem render_blocks_congr (v1 v2 : List (String × TranslationMapping))
    (nd1 : (akeys v1).Nodup) (nd2 : (akeys v2).Nodup)
    (h : ∀ lang, (alookup v1 lang).map (fun tm => blockOfEntry (lang, tm))
      = (alookup v2 lang).map (fun tm => blockOfEntry (lang, tm))) :
    exceptMapList blockOfEntry (sortByKey v1) = exceptMapList blockOfEntry (sortByKey v2) := by
  have hmap : sortByKey (v1.map (fun p => (p.1, blockOfEntry (p.1, p.2))))
      = sortByKey (v2.map (fun p => (p.1, blockOfEntry (p.1, p.2)))) := by
    apply sortByKey_ext
    · rw [akeys_map_value v1 (fun k tm => blockOfEntry (k, tm))]
      exact nd1
    · rw [akeys_map_value v2 (fun k tm => blockOfEntry (k, tm))]
      exact nd2
    · intro k
      rw [alookup_map_value v1 (fun k tm => blockOfEntry (k, tm)) k,
        alookup_map_value v2 (fun k tm => blockOfEntry (k, tm)) k]
      exact h k
  rw [sortByKey_map_value v1 (fun k tm => blockOfEntry (k, tm)),
    sortByKey_map_value v2 (fun k tm => blockOfEntry (k, tm))] at hmap
  apply exceptMapList_congr
  have h1 : (sortByKey v1).map blockOfEntry
      = ((sortByKey v1).map (fun q => (q.1, blockOfEntry (q.1, q.2)))).map Prod.snd := by
    rw [List.map_map]
    apply List.map_congr_left
    intro p _
    cases p
    rfl
  have h2 : (sortByKey v2).map blockOfEntry
      = ((sortByKey v2).map (fun q => (q.1, blockOfEntry (q.1, q.2)))).map Prod.snd := by
    rw [List.map_map]
    apply List.map_congr_left
    intro p _
    cases p
    rfl
  rw [h1, h2, hmap]

/-- C8 counterexample: Go iterates the reference key map in unspecified
order, so two runs may visit the keys in different orders; both orders below
enumerate the same reference key set, yet the two runs issue different
sequences of translation calls — refuting "two runs ... process target
languages and keys in the same order, issue the same sequence of translation
calls". -/
theorem C8_counterexample :
    ["greet", "list"].Perm (akeys demoTF.reference.translations) ∧
    ["list", "greet"].Perm (akeys demoTF.reference.translations) ∧
    ¬ (autoTranslate (clientOf demoStub) "key" ["de"] ["greet", "list"] demoTF).calls
      = (autoTranslate (clientOf demoStub) "key" ["de"] ["list", "greet"] demoTF).calls := by
  refine ⟨by decide, by decide, by decide⟩

/-- C8 amended: two successful runs of the sync over the same dictionary with
the same deterministic stub client may issue their translation calls in
different orders — the Go map iteration order is unspecified and the embedding
exposes it as the order parameters — but they produce the same dictionary
(same languages, same language codes, identical key-value mappings) and a
byte-identical rendered artifact: the template sorts the language blocks and
`ToJSON` sorts each mapping's keys, so the rendered output does not depend on
the iteration orders. -/
theorem C8_order_invariant_result (f : String → String → String → String) (apiKey : String)
    (lo1 ko1 lo2 ko2 : List String) (tf : TranslationFile)
    (hapi : apiKey ≠ "")
    (hlo1 : lo1.Perm (akeys tf.translations))
    (hko1 : ko1.Perm (akeys tf.reference.translations))
    (hlo2 : lo2.Perm (akeys tf.translations))
    (hko2 : ko2.Perm (akeys tf.reference.translations))
    (hlnd : (akeys tf.translations).Nodup)
    (hknd : (akeys tf.reference.translations).Nodup)
    (hend : ∀ p, p ∈ tf.translations → (akeys p.2.translations).Nodup)
    (herr1 : (autoTranslate (clientOf f) apiKey lo1 ko1 tf).err = none)
    (herr2 : (autoTranslate (clientOf f) apiKey lo2 ko2 tf).err = none) :
    (∀ lang k,
      (alookup (autoTranslate (clientOf f) apiKey lo1 ko1 tf).tf.translations lang).map
        (fun tm => (tm.deeplLanguage, tm.languageKey, alookup tm.translations k))
      = (alookup (autoTranslate (clientOf f) apiKey lo2 ko2 tf).tf.translations lang).map
        (fun tm => (tm.deeplLanguage, tm.languageKey, alookup tm.translations k))) ∧
    renderJS (renderView (autoTranslate (clientOf f) apiKey lo1 ko1 tf).tf)
      = renderJS (renderView (autoTranslate (clientOf f) apiKey lo2 ko2 tf).tf) := by
  have hag := runs_agree f apiKey lo1 ko1 lo2 ko2 tf hapi hlo1 hko1 hlo2 hko2
    hlnd hknd hend herr1 herr2
  have hmono1 := autoTranslate_mono (clientOf f) apiKey lo1 ko1 tf
  have hmono2 := autoTranslate_mono (clientOf f) apiKey lo2 ko2 tf
  constructor
  · intro lang k
    rcases hag lang with ⟨h1, h2⟩ | ⟨tm1, tm2, h1, h2, hd, hk, hlk, _, _⟩
    · rw [h1, h2]
    · rw [h1, h2]
      dsimp only [Option.map]
      rw [hd, hk, hlk k]
  · unfold renderJS
    rw [show exceptMapList blockOfEntry
        (sortByKey (renderView (autoTranslate (clientOf f) apiKey lo1 ko1 tf).tf).translations)
      = exceptMapList blockOfEntry
        (sortByKey (renderView (autoTranslate (clientOf f) apiKey lo2 ko2 tf).tf).translations)
      from ?_]
    apply render_blocks_congr
    · unfold renderView
      dsimp only
      apply akeys_nodup_ainsert
      rw [hmono1.2.1]
      exact hlnd
    · unfold renderView
      dsimp only
      apply akeys_nodup_ainsert
      rw [hmono2.2.1]
      exact hlnd
    · intro lang
      unfold renderView
      dsimp only
      rw [hmono1.1, hmono2.1]
      by_cases hlr : lang = tf.reference.languageKey
      · subst hlr
        rw [alookup_ainsert_self, alookup_ainsert_self]
      · rw [alookup_ainsert_other _ _ _ _ hlr, alookup_ainsert_other _ _ _ _ hlr]
        rcases hag lang with ⟨h1, h2⟩ | ⟨tm1, tm2, h1, h2, hd, hk, hlk, hnd1, hnd2⟩
        · rw [h1, h2]
        · rw [h1, h2]
          dsimp only [Option.map]
          rw [blockOfEntry_congr lang tm1 tm2 hnd1 hnd2 hlk]

/-- C8 witness: the two demo runs with swapped key orders render the same
artifact. -/
theorem C8_witness :
    renderJS (renderView (autoTranslate (clientOf demoStub) "key" ["de"]
        ["greet", "list"] demoTF).tf)
      = renderJS (renderView (autoTranslate (clientOf demoStub) "key" ["de"]
        ["list", "greet"] demoTF).tf) :=
  (C8_order_invariant_result demoStub "key" ["de"] ["greet", "list"] ["de"]
    ["list", "greet"] demoTF (by decide) (by decide) (by decide) (by decide) (by decide)
    (by decide) (by decide) (by decide) (by decide) (by decide)).2

theorem hexDigit_lt16 (n : Nat) (h : n < 16) :
    hexDigit n ≠ bsChar ∧ hexDigit n ≠ sqChar := by
  interval_cases n <;> exact ⟨by decide, by decide⟩

theorem stringToList_append (a b : String) : (a ++ b).toList = a.toList ++ b.toList := rfl

theorem bsSafe_append : ∀ (a b : List Char), bsSafe a = true → bsSafe b = true →
    bsSafe (a ++ b) = true
  | [], _, _, hb => hb
  | [c], b, ha, hb => by
    cases b with
    | nil => simpa using ha
    | cons d rest =>
      have hc : ¬ c = bsChar := by simpa [bsSafe] using ha
      simp only [List.cons_append, List.nil_append, bsSafe, if_neg hc]
      exact hb
  | c :: d :: rest, b, ha, hb => by
    simp only [bsSafe] at ha
    by_cases hc : c = bsChar
    · rw [if_pos hc] at ha
      rw [Bool.and_eq_true] at ha
      simp only [List.cons_append, bsSafe, if_pos hc, Bool.and_eq_true]
      exact ⟨ha.1, bsSafe_append rest b ha.2 hb⟩
    · rw [if_neg hc] at ha
      simp only [List.cons_append, bsSafe, if_neg hc]
      have hres := bsSafe_append (d :: rest) b ha hb
      simpa using hres
termination_by a _ _ _ => a.length

theorem allSQEscaped_cons_other (c : Char) (l : List Char)
    (h1 : ¬ c = sqChar) (h2 : ¬ c = bsChar) :
    allSQEscaped (c :: l) = allSQEscaped l := by
  cases l with
  | nil => simp [allSQEscaped, h1]
  | cons d rest => simp [allSQEscaped, h1, h2]

theorem allSQEscaped_escape : ∀ (cs : List Char), bsSafe cs = true →
    allSQEscaped (escapeSQChars cs) = true
  | [], _ => rfl
  | [c], h => by
    by_cases hsq : c = sqChar
    · subst hsq
      decide
    · have hbs : ¬ c = bsChar := by simpa [bsSafe] using h
      simp [escapeSQChars, hsq, allSQEscaped]
  | c :: d :: rest, h => by
    simp only [bsSafe] at h
    by_cases hsq : c = sqChar
    · have hbs : ¬ c = bsChar := by
        rw [hsq]
        decide
      rw [if_neg hbs] at h
      have hres := allSQEscaped_escape (d :: rest) h
      rw [show escapeSQChars (c :: d :: rest)
          = bsChar :: c :: escapeSQChars (d :: rest) from by simp [escapeSQChars, hsq]]
      cases hesc : escapeSQChars (d :: rest) with
      | nil => simp [allSQEscaped, show ¬ bsChar = sqChar from by decide]
      | cons x xs =>
        rw [show allSQEscaped (bsChar :: c :: x :: xs) = allSQEscaped (x :: xs) from by
          simp [allSQEscaped, show ¬ bsChar = sqChar from by decide]]
        rw [← hesc]
        exact hres
    · by_cases hbs : c = bsChar
      · rw [if_pos hbs, Bool.and_eq_true, decide_eq_true_eq] at h
        obtain ⟨hd, hrest⟩ := h
        have hdesc : escapeSQChars (d :: rest) = d :: escapeSQChars rest := by
          simp [escapeSQChars, hd]
        have hres := allSQEscaped_escape rest hrest
        rw [show escapeSQChars (c :: d :: rest) = c :: escapeSQChars (d :: rest) from by
          simp [escapeSQChars, hsq]]
        rw [hdesc, hbs]
        rw [show allSQEscaped (bsChar :: d :: escapeSQChars rest)
            = allSQEscaped (escapeSQChars rest) from by
          simp [allSQEscaped, show ¬ bsChar = sqChar from by decide]]
        exact hres
      · rw [if_neg hbs] at h
        have hres := allSQEscaped_escape (d :: rest) h
        rw [show escapeSQChars (c :: d :: rest) = c :: escapeSQChars (d :: rest) from by
          simp [escapeSQChars, hsq]]
        rw [allSQEscaped_cons_other c _ hsq hbs]
        exact hres
termination_by cs _ => cs.length

theorem bsSafe_cons_bs (d : Char) (l : List Char) (hd : ¬ d = sqChar) :
    bsSafe (bsChar :: d :: l) = bsSafe l := by
  simp [bsSafe, hd]

theorem bsSafe_cons_other (c : Char) (l : List Char) (hc : ¬ c = bsChar) :
    bsSafe (c :: l) = bsSafe l := by
  cases l with
  | nil => simp [bsSafe, hc]
  | cons d rest => simp [bsSafe, hc]

theorem bsSafe_jsonEscapeChar (c : Char) : bsSafe (jsonEscapeChar c) = true := by
  unfold jsonEscapeChar
  by_cases h1 : c = '"'
  · rw [if_pos h1]
    decide
  rw [if_neg h1]
  by_cases h2 : c = bsChar
  · rw [if_pos h2]
    decide
  rw [if_neg h2]
  by_cases h3 : c = '\n'
  · rw [if_pos h3]
    decide
  rw [if_neg h3]
  by_cases h4 : c = '\r'
  · rw [if_pos h4]
    decide
  rw [if_neg h4]
  by_cases h5 : c = '\t'
  · rw [if_pos h5]
    decide
  rw [if_neg h5]
  by_cases h6 : c = '<' ∨ c = '>' ∨ c = '&' ∨ c.toNat < 32
  · rw [if_pos h6]
    have h256 : c.toNat < 256 := by
      rcases h6 with h | h | h | h
      · rw [h]; decide
      · rw [h]; decide
      · rw [h]; decide
      · omega
    obtain ⟨hxb, _⟩ := hexDigit_lt16 (c.toNat / 16) (by omega)
    obtain ⟨hyb, _⟩ := hexDigit_lt16 (c.toNat % 16) (by omega)
    rw [bsSafe_cons_bs _ _ (by decide), bsSafe_cons_other _ _ (by decide),
      bsSafe_cons_other _ _ (by decide), bsSafe_cons_other _ _ hxb]
    simp [bsSafe, hyb]
  rw [if_neg h6]
  by_cases h7 : c.toNat = 8232
  · rw [if_pos h7]
    decide
  rw [if_neg h7]
  by_cases h8 : c.toNat = 8233
  · rw [if_pos h8]
    decide
  rw [if_neg h8]
  simp [bsSafe, h2]

theorem bsSafe_flatten : ∀ (ls : List (List Char)),
    (∀ l, l ∈ ls → bsSafe l = true) → bsSafe ls.flatten = true := by
  intro ls
  induction ls with
  | nil => intro _; rfl
  | cons l rest ih =>
    intro h
    rw [List.flatten_cons]
    exact bsSafe_append l rest.flatten (h l (List.mem_cons_self l rest))
      (ih (fun x hx => h x (List.mem_cons_of_mem l hx)))

theorem bsSafe_jsonEscapeString (s : String) : bsSafe (jsonEscapeString s).toList = true := by
  unfold jsonEscapeString
  apply bsSafe_flatten
  intro l hl
  obtain ⟨c, _, hc⟩ := List.mem_map.mp hl
  rw [← hc]
  exact bsSafe_jsonEscapeChar c

theorem bsSafe_jsonQuote (s : String) : bsSafe (jsonQuote s).toList = true := by
  unfold jsonQuote
  rw [stringToList_append, stringToList_append]
  apply bsSafe_append
  · apply bsSafe_append
    · decide
    · exact bsSafe_jsonEscapeString s
  · decide

theorem bsSafe_joinSep : ∀ (parts : List String),
    (∀ p, p ∈ parts → bsSafe p.toList = true) → bsSafe (joinSep "," parts).toList = true
  | [], _ => rfl
  | [a], h => h a (List.mem_cons_self a [])
  | a :: b :: rest, h => by
    show bsSafe (a ++ "," ++ joinSep "," (b :: rest)).toList = true
    rw [stringToList_append, stringToList_append]
    apply bsSafe_append
    · apply bsSafe_append
      · exact h a (List.mem_cons_self a (b :: rest))
      · decide
    · exact bsSafe_joinSep (b :: rest) (fun p hp => h p (List.mem_cons_of_mem a hp))

theorem exceptMapList_ok_rel {α β : Type} (g : α → Except String β) (S : α → β → Prop) :
    ∀ (l : List α), (∀ a, a ∈ l → ∃ b, g a = .ok b ∧ S a b) →
    ∃ bs, exceptMapList g l = .ok bs ∧ List.Forall₂ S l bs := by
  intro l
  induction l with
  | nil => exact fun _ => ⟨[], rfl, List.Forall₂.nil⟩
  | cons a rest ih =>
    intro h
    obtain ⟨b, hgb, hSb⟩ := h a (List.mem_cons_self a rest)
    obtain ⟨bs, hbs, hF⟩ := ih (fun x hx => h x (List.mem_cons_of_mem a hx))
    refine ⟨b :: bs, ?_, List.Forall₂.cons hSb hF⟩
    unfold exceptMapList
    rw [hgb, hbs]

theorem forall₂_const_right {α β : Type} (P : β → Prop) (l : List α) (bs : List β)
    (h : List.Forall₂ (fun _ b => P b) l bs) : ∀ b, b ∈ bs → P b := by
  induction h with
  | nil =>
    intro b hb
    cases hb
  | cons h1 _ ih =>
    intro b hb
    rcases List.mem_cons.mp hb with hb | hb
    · subst hb
      exact h1
    · exact ih b hb

theorem jsonOfElem_ok_safe (e : TElem) (h : serializableElem e = true) :
    ∃ j, jsonOfElem e = .ok j ∧ bsSafe j.toList = true := by
  cases e with
  | estr s => exact ⟨jsonQuote s, rfl, bsSafe_jsonQuote s⟩
  | enull => exact ⟨"null", rfl, by decide⟩
  | eother t => simp [serializableElem] at h

theorem jsonOfValue_ok_safe (v : TValue) (h : serializableValue v = true) :
    ∃ j, jsonOfValue v = .ok j ∧ bsSafe j.toList = true := by
  cases v with
  | vnull => exact ⟨"null", rfl, by decide⟩
  | vstr s => exact ⟨jsonQuote s, rfl, bsSafe_jsonQuote s⟩
  | vother t => simp [serializableValue] at h
  | vseq es =>
    rw [serializableValue] at h
    obtain ⟨parts, hparts, hF⟩ := exceptMapList_ok_rel jsonOfElem
      (fun _ j => bsSafe j.toList = true) es
      (fun e he => jsonOfElem_ok_safe e (by
        rw [List.all_eq_true] at h
        exact h e he))
    refine ⟨"[" ++ joinSep "," parts ++ "]", ?_, ?_⟩
    · rw [jsonOfValue]
      rw [show exceptMapList jsonOfElem es = Except.ok parts from hparts]
      rfl
    · rw [stringToList_append, stringToList_append]
      apply bsSafe_append
      · apply bsSafe_append
        · decide
        · apply bsSafe_joinSep
          intro p hp
          exact forall₂_const_right (fun j => bsSafe j.toList = true) es parts hF p hp
      · decide

theorem jsonOfTranslation_ok_safe (m : Translation)
    (h : ∀ p, p ∈ m → serializableValue p.2 = true) :
    ∃ j, jsonOfTranslation m = .ok j ∧ bsSafe j.toList = true := by
  obtain ⟨parts, hparts, hF⟩ := exceptMapList_ok_rel
    (fun p => (do
      let v ← jsonOfValue p.2
      pure (jsonQuote p.1 ++ ":" ++ v) : Except String String))
    (fun _ j => bsSafe j.toList = true) (sortByKey m)
    (fun p hp => by
      obtain ⟨v, hv, hvsafe⟩ := jsonOfValue_ok_safe p.2
        (h p ((sortByKey_perm m).mem_iff.mp hp))
      refine ⟨jsonQuote p.1 ++ ":" ++ v, ?_, ?_⟩
      · show (do
          let v ← jsonOfValue p.2
          pure (jsonQuote p.1 ++ ":" ++ v) : Except String String)
            = .ok (jsonQuote p.1 ++ ":" ++ v)
        rw [show jsonOfValue p.2 = Except.ok v from hv]
        rfl
      · show bsSafe (jsonQuote p.1 ++ ":" ++ v).toList = true
        rw [stringToList_append, stringToList_append]
        apply bsSafe_append
        · apply bsSafe_append
          · exact bsSafe_jsonQuote p.1
          · decide
        · exact hvsafe)
  refine ⟨"\x7b" ++ joinSep "," parts ++ "\x7d", ?_, ?_⟩
  · unfold jsonOfTranslation
    rw [show exceptMapList (fun p => (do
        let v ← jsonOfValue p.2
        pure (jsonQuote p.1 ++ ":" ++ v) : Except String String)) (sortByKey m)
      = Except.ok parts from hparts]
    rfl
  · rw [stringToList_append, stringToList_append]
    apply bsSafe_append
    · apply bsSafe_append
      · decide
      · apply bsSafe_joinSep
        intro p hp
        exact forall₂_const_right (fun j => bsSafe j.toList = true) _ parts hF p hp
    · decide

theorem translationToJSON_ok_escaped (m : Translation)
    (h : ∀ p, p ∈ m → serializableValue p.2 = true) :
    ∃ t, translationToJSON m = .ok t ∧ allSQEscaped t.toList = true := by
  obtain ⟨j, hj, hsafe⟩ := jsonOfTranslation_ok_safe m h
  refine ⟨String.mk (escapeSQChars j.toList), ?_, ?_⟩
  · unfold translationToJSON
    rw [show jsonOfTranslation m = Except.ok j from hj]
    rfl
  · exact allSQEscaped_escape j.toList hsafe

theorem mem_ainsert {α : Type} (l : List (String × α)) (k : String) (v : α) (p : String × α)
    (h : p ∈ ainsert l k v) : p = (k, v) ∨ p ∈ l := by
  unfold ainsert at h
  by_cases hs : (alookup l k).isSome
  · rw [if_pos hs] at h
    obtain ⟨q, hq, hqe⟩ := List.mem_map.mp h
    by_cases hqk : q.1 = k
    · left
      rw [← hqe, if_pos hqk]
    · right
      rw [← hqe, if_neg hqk]
      exact hq
  · rw [if_neg hs] at h
    rcases List.mem_append.mp h with h | h
    · right
      exact h
    · left
      simpa using h

/-- C9: for a dictionary whose values fit the data model, rendering the
render view (reference copied under its own language key) succeeds and
produces the header — beginning with the auto-generated marker comment —
followed by exactly one block per language of the view, in sorted order, and
the footer; each block is `'lang': JSON.parse('...')` with the language's
mapping serialized as JSON inside the single-quoted string, and every single
quote character of that JSON text is escaped by a backslash, so a value
containing an apostrophe still yields syntactically valid output. -/
theorem C9_artifact_shape (tf : TranslationFile) (hser : serializableTF tf = true) :
    ∃ out blocks,
      renderJS (renderView tf) = .ok out ∧
      out = jsHeader ++ String.join blocks ++ jsFooter ∧
      (∃ restStr, out = "// Auto-Generated, do not edit!" ++ restStr) ∧
      blocks.length = (renderView tf).translations.length ∧
      alookup (renderView tf).translations tf.reference.languageKey = some tf.reference ∧
      List.Forall₂ (fun p b => ∃ t, translationToJSON p.2.translations = .ok t ∧
        allSQEscaped t.toList = true ∧ b = renderBlock p.1 t)
        (sortByKey (renderView tf).translations) blocks := by
  rw [serializableTF, Bool.and_eq_true] at hser
  obtain ⟨hserref, hserlangs⟩ := hser
  have hserview : ∀ p, p ∈ (renderView tf).translations → serializableTM p.2 = true := by
    intro p hp
    unfold renderView at hp
    dsimp only at hp
    rcases mem_ainsert _ _ _ p hp with hp | hp
    · rw [hp]
      exact hserref
    · rw [List.all_eq_true] at hserlangs
      exact hserlangs p hp
  obtain ⟨blocks, hblocks, hF⟩ := exceptMapList_ok_rel blockOfEntry
    (fun p b => ∃ t, translationToJSON p.2.translations = .ok t ∧
      allSQEscaped t.toList = true ∧ b = renderBlock p.1 t)
    (sortByKey (renderView tf).translations)
    (fun p hp => by
      have hpser : serializableTM p.2 = true :=
        hserview p ((sortByKey_perm _).mem_iff.mp hp)
      rw [serializableTM, List.all_eq_true] at hpser
      obtain ⟨t, ht, hesc⟩ := translationToJSON_ok_escaped p.2.translations hpser
      refine ⟨renderBlock p.1 t, ?_, t, ht, hesc, rfl⟩
      unfold blockOfEntry
      rw [show translationToJSON p.2.translations = Except.ok t from ht]
      rfl)
  refine ⟨jsHeader ++ String.join blocks ++ jsFooter, blocks, ?_, rfl, ?_, ?_, ?_, hF⟩
  · unfold renderJS
    rw [show exceptMapList blockOfEntry (sortByKey (renderView tf).translations)
      = Except.ok blocks from hblocks]
    rfl
  · refine ⟨"\n\nexport default \x7b" ++ (String.join blocks ++ jsFooter), ?_⟩
    rw [show jsHeader = "// Auto-Generated, do not edit!" ++ "\n\nexport default \x7b"
      from by decide]
    rw [String.append_assoc, String.append_assoc]
  · rw [← hF.length_eq]
    exact (sortByKey_perm _).length_eq
  · unfold renderView
    dsimp only
    exact alookup_ainsert_self _ _ _

/-- C9 witness: rendering the concrete dictionary whose value contains an
apostrophe succeeds. -/
theorem C9_witness :
    (renderJS (renderView demoAposTF)).toOption.isSome = true := by
  obtain ⟨out, blocks, h1, _⟩ := C9_artifact_shape demoAposTF (by decide)
  rw [h1]
  rfl

/-- Concrete check: the mapping holding `it's` serializes with the apostrophe
escaped by a backslash inside the JSON text. -/
theorem apostrophe_escaped_concrete :
    translationToJSON demoAposDE.translations
      = .ok ("\x7b\"q\":\"it" ++ bsStr ++ sqStr ++ "s\"\x7d") := by decide

theorem forall₂_map_eq {α β : Type} (f : β → α) :
    ∀ (l : List α) (bs : List β), List.Forall₂ (fun a b => f b = a) l bs → bs.map f = l := by
  intro l bs h
  induction h with
  | nil => rfl
  | cons hab _ ih => simp [List.map, hab, ih]

theorem encodeElem_roundtrip (e : TElem) (h : serializableElem e = true) :
    ∃ n, encodeElem e = .ok n ∧ decodeElem n = e := by
  cases e with
  | estr s => exact ⟨.ystr s, rfl, rfl⟩
  | enull => exact ⟨.ynull, rfl, rfl⟩
  | eother t => simp [serializableElem] at h

theorem encodeValue_roundtrip (v : TValue) (h : serializableValue v = true) :
    ∃ n, encodeValue v = .ok n ∧ decodeValue n = v := by
  cases v with
  | vnull => exact ⟨.ynull, rfl, rfl⟩
  | vstr s => exact ⟨.ystr s, rfl, rfl⟩
  | vother t => simp [serializableValue] at h
  | vseq es =>
    rw [serializableValue, List.all_eq_true] at h
    obtain ⟨items, hitems, hF⟩ := exceptMapList_ok_rel encodeElem
      (fun e n => decodeElem n = e) es
      (fun e he => encodeElem_roundtrip e (h e he))
    refine ⟨.yseq items, ?_, ?_⟩
    · unfold encodeValue
      dsimp only
      rw [show exceptMapList encodeElem es = Except.ok items from hitems]
      rfl
    · show TValue.vseq (items.map decodeElem) = TValue.vseq es
      rw [forall₂_map_eq decodeElem es items hF]

theorem encodeTranslation_roundtrip (m : Translation)
    (h : ∀ p, p ∈ m → serializableValue p.2 = true) :
    ∃ entries, encodeTranslation m = .ok (.ymap entries) ∧
      entries.map (fun q => (q.1, decodeValue q.2)) = sortByKey m := by
  obtain ⟨entries, hentries, hF⟩ := exceptMapList_ok_rel
    (fun p => (do
      let v ← encodeValue p.2
      pure (p.1, v) : Except String (String × YNode)))
    (fun p q => (q.1, decodeValue q.2) = p) (sortByKey m)
    (fun p hp => by
      obtain ⟨n, hn, hdn⟩ := encodeValue_roundtrip p.2 (h p ((sortByKey_perm m).mem_iff.mp hp))
      refine ⟨(p.1, n), ?_, ?_⟩
      · show (do
          let v ← encodeValue p.2
          pure (p.1, v) : Except String (String × YNode)) = .ok (p.1, n)
        rw [show encodeValue p.2 = Except.ok n from hn]
        rfl
      · show (p.1, decodeValue n) = p
        rw [hdn])
  refine ⟨entries, ?_, forall₂_map_eq _ _ _ hF⟩
  unfold encodeTranslation
  rw [show exceptMapList (fun p => (do
      let v ← encodeValue p.2
      pure (p.1, v) : Except String (String × YNode))) (sortByKey m) = Except.ok entries
    from hentries]
  rfl

theorem decodeMapping_encoded (dl lk : String) (entries : List (String × YNode)) :
    decodeMapping (.ymap
      ((if dl = "" then [] else [("deeplLanguage", YNode.ystr dl)])
        ++ (if lk = "" then [] else [("languageKey", YNode.ystr lk)])
        ++ [("translations", .ymap entries)]))
      = .ok ⟨dl, lk, entries.map (fun q => (q.1, decodeValue q.2))⟩ := by
  have h1 : decodeStrField
      ((if dl = "" then [] else [("deeplLanguage", YNode.ystr dl)])
        ++ (if lk = "" then [] else [("languageKey", YNode.ystr lk)])
        ++ [("translations", YNode.ymap entries)]) "deeplLanguage" = .ok dl := by
    by_cases hdl : dl = "" <;> by_cases hlk : lk = "" <;>
      simp [hdl, hlk, decodeStrField, alookup]
  have h2 : decodeStrField
      ((if dl = "" then [] else [("deeplLanguage", YNode.ystr dl)])
        ++ (if lk = "" then [] else [("languageKey", YNode.ystr lk)])
        ++ [("translations", YNode.ymap entries)]) "languageKey" = .ok lk := by
    by_cases hdl : dl = "" <;> by_cases hlk : lk = "" <;>
      simp [hdl, hlk, decodeStrField, alookup]
  have h3 : decodeTranslation
      ((if dl = "" then [] else [("deeplLanguage", YNode.ystr dl)])
        ++ (if lk = "" then [] else [("languageKey", YNode.ystr lk)])
        ++ [("translations", YNode.ymap entries)])
      = .ok (entries.map (fun q => (q.1, decodeValue q.2))) := by
    by_cases hdl : dl = "" <;> by_cases hlk : lk = "" <;>
      simp [hdl, hlk, decodeTranslation, alookup]
  unfold decodeMapping
  dsimp only
  rw [h1, h2, h3]
  rfl

theorem encodeMapping_roundtrip (tm : TranslationMapping) (h : serializableTM tm = true) :
    ∃ n, encodeMapping tm = .ok n ∧ decodeMapping n = .ok (canonTM tm) := by
  rw [serializableTM, List.all_eq_true] at h
  obtain ⟨entries, hentries, hdec⟩ := encodeTranslation_roundtrip tm.translations h
  refine ⟨.ymap
    ((if tm.deeplLanguage = "" then [] else [("deeplLanguage", YNode.ystr tm.deeplLanguage)])
      ++ (if tm.languageKey = "" then [] else [("languageKey", YNode.ystr tm.languageKey)])
      ++ [("translations", .ymap entries)]), ?_, ?_⟩
  · unfold encodeMapping
    rw [show encodeTranslation tm.translations = Except.ok (YNode.ymap entries) from hentries]
    rfl
  · have hd := decodeMapping_encoded tm.deeplLanguage tm.languageKey entries
    rw [hdec] at hd
    exact hd

theorem decodeLangEntries_of_forall₂ :
    ∀ (l : List (String × TranslationMapping)) (entries : List (String × YNode)),
    List.Forall₂ (fun p q => q.1 = p.1 ∧ decodeMapping q.2 = .ok (canonTM p.2)) l entries →
    decodeLangEntries entries = .ok (l.map (fun p => (p.1, canonTM p.2))) := by
  intro l
  induction l with
  | nil =>
    intro entries hF
    cases hF
    rfl
  | cons p rest ih =>
    intro entries hF
    cases hF with
    | cons hpq hrest =>
      rename_i q qs
      obtain ⟨h1, h2⟩ := hpq
      have ih2 := ih qs hrest
      unfold decodeLangEntries at ih2 ⊢
      unfold exceptMapList
      rw [h2]
      dsimp only
      rw [ih2]
      dsimp only
      rw [h1]
      rfl

/-- C7: saving a dictionary whose values fit the data model and whose maps
have well-formed key lists, then loading the saved document, succeeds and
yields a dictionary structurally equal to the original up to key ordering:
it is exactly the key-sorted normal form, the reference language codes and
every key lookup in the reference and in every language entry are unchanged,
and no language appears or disappears. -/
theorem C7_roundtrip (tf : TranslationFile) (hser : serializableTF tf = true)
    (hnd : (akeys tf.translations).Nodup)
    (hndr : (akeys tf.reference.translations).Nodup)
    (hndl : ∀ p ∈ tf.translations, (akeys p.2.translations).Nodup) :
    ∃ doc tf2, encodeTF tf = .ok doc ∧ decodeTF doc = .ok tf2 ∧ tf2 = canonTF tf ∧
      tf2.reference.deeplLanguage = tf.reference.deeplLanguage ∧
      tf2.reference.languageKey = tf.reference.languageKey ∧
      (∀ k, alookup tf2.reference.translations k = alookup tf.reference.translations k) ∧
      (∀ lang tm, alookup tf.translations lang = some tm →
        ∃ tm2, alookup tf2.translations lang = some tm2 ∧
          tm2.deeplLanguage = tm.deeplLanguage ∧ tm2.languageKey = tm.languageKey ∧
          ∀ k, alookup tm2.translations k = alookup tm.translations k) ∧
      (∀ lang, alookup tf.translations lang = none → alookup tf2.translations lang = none) := by
  rw [serializableTF, Bool.and_eq_true] at hser
  obtain ⟨hserref, hserlangs⟩ := hser
  rw [List.all_eq_true] at hserlangs
  obtain ⟨r, hr, hrdec⟩ := encodeMapping_roundtrip tf.reference hserref
  obtain ⟨entries, hentries, hF⟩ := exceptMapList_ok_rel
    (fun p => (do
      let v ← encodeMapping p.2
      pure (p.1, v) : Except String (String × YNode)))
    (fun p q => q.1 = p.1 ∧ decodeMapping q.2 = .ok (canonTM p.2))
    (sortByKey tf.translations)
    (fun p hp => by
      obtain ⟨n, hn, hdn⟩ := encodeMapping_roundtrip p.2
        (hserlangs p ((sortByKey_perm _).mem_iff.mp hp))
      refine ⟨(p.1, n), ?_, rfl, hdn⟩
      show (do
        let v ← encodeMapping p.2
        pure (p.1, v) : Except String (String × YNode)) = .ok (p.1, n)
      rw [show encodeMapping p.2 = Except.ok n from hn]
      rfl)
  have hndsort : (akeys (sortByKey tf.translations)).Nodup :=
    (((sortByKey_perm tf.translations).map Prod.fst).nodup_iff).mpr hnd
  have ha1 : alookup [("reference", r), ("translations", YNode.ymap entries)] "reference"
      = some r := by
    simp [alookup]
  have ha2 : alookup [("reference", r), ("translations", YNode.ymap entries)] "translations"
      = some (.ymap entries) := by
    simp [alookup]
  refine ⟨.ymap [("reference", r), ("translations", .ymap entries)],
    ⟨canonTM tf.reference, (sortByKey tf.translations).map (fun p => (p.1, canonTM p.2))⟩,
    ?_, ?_, ?_, rfl, rfl, ?_, ?_, ?_⟩
  · unfold encodeTF
    rw [show encodeMapping tf.reference = Except.ok r from hr]
    rw [show exceptMapList (fun p => (do
        let v ← encodeMapping p.2
        pure (p.1, v) : Except String (String × YNode))) (sortByKey tf.translations)
      = Except.ok entries from hentries]
    rfl
  · unfold decodeTF
    dsimp only
    rw [ha1]
    dsimp only
    rw [show decodeMapping r = Except.ok (canonTM tf.reference) from hrdec]
    dsimp only
    rw [ha2]
    dsimp only
    rw [show decodeLangEntries entries
      = Except.ok ((sortByKey tf.translations).map (fun p => (p.1, canonTM p.2)))
      from decodeLangEntries_of_forall₂ _ _ hF]
  · show (⟨canonTM tf.reference,
        (sortByKey tf.translations).map (fun p => (p.1, canonTM p.2))⟩ : TranslationFile)
      = canonTF tf
    have hm : sortByKey (tf.translations.map (fun p => (p.1, canonTM p.2)))
        = (sortByKey tf.translations).map (fun p => (p.1, canonTM p.2)) :=
      sortByKey_map_value tf.translations (fun _ v => canonTM v)
    unfold canonTF
    rw [hm]
  · intro k
    show alookup (sortByKey tf.reference.translations) k = alookup tf.reference.translations k
    exact alookup_perm _ _ (sortByKey_perm _)
      ((((sortByKey_perm tf.reference.translations).map Prod.fst).nodup_iff).mpr hndr) k
  · intro lang tm hlm
    refine ⟨canonTM tm, ?_, rfl, rfl, ?_⟩
    · show alookup ((sortByKey tf.translations).map (fun p => (p.1, canonTM p.2))) lang
        = some (canonTM tm)
      have hmv : alookup ((sortByKey tf.translations).map (fun p => (p.1, canonTM p.2))) lang
          = (alookup (sortByKey tf.translations) lang).map canonTM :=
        alookup_map_value (sortByKey tf.translations) (fun _ v => canonTM v) lang
      rw [hmv, alookup_perm _ _ (sortByKey_perm _) hndsort lang, hlm]
      rfl
    · intro k
      show alookup (sortByKey tm.translations) k = alookup tm.translations k
      exact alookup_perm _ _ (sortByKey_perm _)
        ((((sortByKey_perm tm.translations).map Prod.fst).nodup_iff).mpr
          (hndl (lang, tm) (alookup_mem _ _ _ hlm))) k
  · intro lang hnone
    show alookup ((sortByKey tf.translations).map (fun p => (p.1, canonTM p.2))) lang = none
    have hmv : alookup ((sortByKey tf.translations).map (fun p => (p.1, canonTM p.2))) lang
        = (alookup (sortByKey tf.translations) lang).map canonTM :=
      alookup_map_value (sortByKey tf.translations) (fun _ v => canonTM v) lang
    rw [hmv, alookup_perm _ _ (sortByKey_perm _) hndsort lang, hnone]
    rfl

/-- C7 witness: the concrete dictionary round-trips through the codec to its
key-sorted normal form. -/
theorem C7_witness :
    (encodeTF demoAposTF).toOption.bind (fun d => (decodeTF d).toOption)
      = some (canonTF demoAposTF) := by
  obtain ⟨doc, tf2, h1, h2, h3, _⟩ :=
    C7_roundtrip demoAposTF (by decide) (by decide) (by decide) (by decide)
  rw [h1]
  show (decodeTF doc).toOption = some (canonTF demoAposTF)
  rw [h2, h3]
  rfl
